import Mathlib

/-!
# Verification of the avrocado Avro codec library

Shallow embedding, in Lean 4, of the `avro` Go package (leboncoin/avrocado):

* the type-name translator (`CamelCaseToSnakeCase`, `GoToAvroType`,
  `DefaultTypeNameEncoder`, `AddNamespace`) from `avro.go`;
* the generic record mapper (`encodeUnionHook`, `decodeUnionHook`,
  `Codec.marshal`, `Codec.unmarshal`) from `avro.go`;
* the registry-backed codec cache (`CodecRegistry.Marshal`,
  `CodecRegistry.Unmarshal`, `getCodecByID`) from `codec_registry.go`;
* a model of the external goavro binary codec collaborator
  (`BinaryFromNative` / `NativeFromBinary`), which the package treats as a
  black box.

Machine bytes are modelled as `Nat` (each `< 256` where produced), Go's
`int32` schema ids as `Int` with explicit two's-complement reduction where
the code serializes them.
-/

namespace Avrocado

/-! ## Byte-level utilities

Big-endian 32-bit framing used by `binary.Write`/`binary.Read` with
`binary.BigEndian` on the `Header{MagicByte byte; ID SchemaID}` struct in
`codec_registry.go`. -/

/-- Two's-complement reduction of an integer to `[0, 2^32)`, the value Go
writes for an `int32`. -/
def toUInt32 (n : Int) : Nat :=
  (n % 4294967296).toNat

/-- Big-endian 4-byte encoding of an `int32` value, as written by
`binary.Write(buf, binary.BigEndian, id)`. -/
def int32BE (n : Int) : List Nat :=
  let u := toUInt32 n
  [u / 16777216 % 256, u / 65536 % 256, u / 256 % 256, u % 256]

/-- Big-endian 4-byte decoding into a signed `int32` value, as read by
`binary.Read(buf, binary.BigEndian, &id)`. -/
def int32BEDecode (b3 b2 b1 b0 : Nat) : Int :=
  let u : Nat := b3 * 16777216 + b2 * 65536 + b1 * 256 + b0
  if u < 2147483648 then (u : Int) else (u : Int) - 4294967296

/-! ## Type-name translation (`avro.go`)

`CamelCaseToSnakeCase` delegates to the external `fatih/camelcase` library's
`Split`; the splitting algorithm is embedded here following that library:
group consecutive characters by class (lower / upper / digit / other), then
move the last upper-case letter of an upper-run that precedes a lower-run
onto that lower-run, drop empty runs.  Character classes are the ASCII ones
(the identifiers this package translates are Go type names). -/

/-- Character class used by the camel-case splitter: 1 = lower, 2 = upper,
3 = digit, 4 = anything else. -/
def charClass (c : Char) : Nat :=
  if c.isLower then 1 else if c.isUpper then 2 else if c.isDigit then 3 else 4

/-- Group the tail of a string into runs of equal character class; `cur` is
the current run, in reverse order. -/
def groupGo (cur : List Char) (curClass : Nat) : List Char → List (List Char)
  | [] => [cur.reverse]
  | c :: cs =>
    if charClass c = curClass then
      groupGo (c :: cur) curClass cs
    else
      cur.reverse :: groupGo [c] (charClass c) cs

/-- Split a character list into maximal runs of equal character class. -/
def splitRuns : List Char → List (List Char)
  | [] => []
  | c :: cs => groupGo [c] (charClass c) cs

/-- Whether the acronym fix-up applies to two adjacent runs: the first starts
with an upper-case letter and the second with a lower-case letter. -/
def fixCond (r1 r2 : List Char) : Bool :=
  match r1.head?, r2.head? with
  | some a, some b => a.isUpper && b.isLower
  | _, _ => false

/-- One left-to-right pass moving the trailing upper-case letter of an
upper-run onto a following lower-run (`"PDFL","oader"` becomes
`"PDF","Loader"`); an emptied run is kept and dropped later. -/
def fixGo (cur : List Char) : List (List Char) → List (List Char)
  | [] => [cur]
  | nxt :: rest =>
    if fixCond cur nxt then
      cur.dropLast :: fixGo (cur.getLastD ' ' :: nxt) rest
    else
      cur :: fixGo nxt rest

/-- The acronym fix-up pass over all runs. -/
def fixAcronyms : List (List Char) → List (List Char)
  | [] => []
  | r :: rs => fixGo r rs

/-- Model of `camelcase.Split`: runs by character class, acronym fix-up,
empty runs removed. -/
def camelSplit (s : String) : List String :=
  ((fixAcronyms (splitRuns s.data)).filter (fun r => !r.isEmpty)).map
    (fun cs => String.mk cs)

/-- Character-wise lowering, the effect of `strings.ToLower` on the
identifiers this package translates. -/
def toLowerStr (s : String) : String :=
  String.mk (s.data.map Char.toLower)

/-- `CamelCaseToSnakeCase` from `avro.go`: split on case and acronym
boundaries, lower-case each segment, join with underscores. -/
def CamelCaseToSnakeCase (name : String) : String :=
  String.intercalate "_" ((camelSplit name).map toLowerStr)

/-- The `typeConversion` table from `avro.go`, mapping Go primitive type
names to Avro type names. -/
def typeConversion : List (String × String) :=
  [("uint8", "int"), ("uint16", "int"), ("uint32", "int"),
   ("int8", "int"), ("int16", "int"), ("int32", "int"), ("rune", "int"),
   ("uint", "long"), ("int", "long"), ("uint64", "long"), ("int64", "long"),
   ("float32", "float"), ("float64", "double"), ("bool", "boolean")]

/-- `GoToAvroType` from `avro.go`: table lookup, identity on absent keys. -/
def GoToAvroType (name : String) : String :=
  match typeConversion.lookup name with
  | some out => out
  | none => name

/-- `DefaultTypeNameEncoder` from `avro.go`: Avro type conversion followed by
camel-case to snake-case translation. -/
def DefaultTypeNameEncoder (name : String) : String :=
  CamelCaseToSnakeCase (GoToAvroType name)

/-- `AddNamespace` from `avro.go`. -/
def AddNamespace (namespace_ typeName : String) : String :=
  if namespace_.length = 0 then typeName else namespace_ ++ "." ++ typeName

/-- The `avroBaseTypes` list from `avro.go`. -/
def avroBaseTypes : List String :=
  ["null", "boolean", "int", "long", "float", "double", "bytes", "string"]

/-- `isAvroBaseType` from `avro.go`. -/
def isAvroBaseType (avroType : String) : Bool :=
  avroBaseTypes.contains avroType

/-! ## Native value trees and Avro schemas

`NativeValue` is the generic representation exchanged with the goavro Binary
Codec: null, scalars, string-keyed mappings (records, and single-key union
mappings) and ordered sequences.  `AvroType` is a parsed schema: primitives,
records with per-field optional defaults, enums, arrays and unions. -/

/-- The Binary Codec's native value tree.  `nint` is what goavro yields for
Avro `int` (Go `int32`), `nlong` for Avro `long` (Go `int64`). -/
inductive NativeValue where
  | nnull
  | nbool (b : Bool)
  | nint (n : Int)
  | nlong (n : Int)
  | nstr (s : String)
  | nmap (entries : List (String × NativeValue))
  | narr (vs : List NativeValue)

/-- The generic string-keyed map produced when decoding into a
`map[string]interface{}` destination. -/
abbrev GenMap := List (String × NativeValue)

/-- A parsed Avro schema.  A record field is a name, a type, and an optional
declared default value. -/
inductive AvroType where
  | anull
  | aboolean
  | aint
  | along
  | astring
  | arecord (name : String) (fields : List (String × AvroType × Option NativeValue))
  | aenum (name : String) (symbols : List String)
  | aarray (items : AvroType)
  | aunion (branches : List AvroType)

/-- The Avro-visible name under which a schema appears as a union branch. -/
def branchName : AvroType → String
  | .anull => "null"
  | .aboolean => "boolean"
  | .aint => "int"
  | .along => "long"
  | .astring => "string"
  | .arecord n _ => n
  | .aenum n _ => n
  | .aarray _ => "array"
  | .aunion _ => "union"

/-! ## Model of the goavro Binary Codec collaborator

Modelled from the spec: the Binary Codec (goavro) is an external collaborator
treated as a black box — `encode(nativeValue) -> bytes`,
`decode(bytes) -> nativeValue`, schema-driven, where encoding a record
applies the schema's declared default for any field absent from the input
mapping, a decoded union is `nil` for the null branch and otherwise a
mapping with exactly one key (the chosen branch's name), and a decoded
record is a mapping holding every schema field.  Integers use zigzag
varints as in Avro; the byte-level layout of strings is abstracted as a
length followed by a varint per character. -/

/-- Little-endian base-128 varint encoding, with explicit fuel (the value
itself is always sufficient fuel). -/
def varintEncF : Nat → Nat → List Nat
  | 0, n => [n % 128]
  | fuel + 1, n => if n < 128 then [n] else (n % 128 + 128) :: varintEncF fuel (n / 128)

/-- Little-endian base-128 varint encoding. -/
def varintEnc (n : Nat) : List Nat := varintEncF n n

/-- Varint decoding; returns the value and the unconsumed bytes. -/
def varintDec : List Nat → Option (Nat × List Nat)
  | [] => none
  | b :: rest =>
    if b < 128 then some (b, rest)
    else
      match varintDec rest with
      | some (m, rest') => some (b - 128 + 128 * m, rest')
      | none => none

/-- Zigzag mapping of signed integers onto naturals. -/
def zigzag (n : Int) : Nat :=
  if 0 ≤ n then (2 * n).toNat else (-(2 * n) - 1).toNat

/-- Inverse of `zigzag`. -/
def unzigzag (u : Nat) : Int :=
  if u % 2 = 0 then ((u / 2 : Nat) : Int) else -(((u / 2 : Nat) : Int) + 1)

/-- Avro `long`/`int` encoding: zigzag then varint. -/
def encLong (n : Int) : List Nat := varintEnc (zigzag n)

/-- Avro `long`/`int` decoding. -/
def decLong (bs : List Nat) : Option (Int × List Nat) :=
  match varintDec bs with
  | some (u, rest) => some (unzigzag u, rest)
  | none => none

/-- Character-sequence encoding for the string model: one varint per
character code point. -/
def encodeChars : List Char → List Nat
  | [] => []
  | c :: cs => varintEnc c.toNat ++ encodeChars cs

/-- Decode `k` characters. -/
def decodeChars : Nat → List Nat → Option (List Char × List Nat)
  | 0, bs => some ([], bs)
  | k + 1, bs =>
    match varintDec bs with
    | none => none
    | some (u, bs') =>
      if Nat.isValidChar u then
        match decodeChars k bs' with
        | some (cs, bs'') => some (Char.ofNat u :: cs, bs'')
        | none => none
      else none

/-- String encoding: length then characters. -/
def encStr (s : String) : List Nat := encLong s.length ++ encodeChars s.data

/-- The native value a decoded union branch produces: `nil` for the null
branch, otherwise a single-key mapping naming the branch. -/
def mkUnionNative (b : AvroType) (v : NativeValue) : NativeValue :=
  match b with
  | .anull => .nnull
  | _ => .nmap [(branchName b, v)]

/-- Index of the first occurrence of a symbol in an enum's symbol list. -/
def symbolIndex : List String → String → Option Nat
  | [], _ => none
  | a :: rest, s =>
    if a = s then some 0
    else
      match symbolIndex rest s with
      | some i => some (i + 1)
      | none => none

/-- Sequential item decoding for array bodies. -/
def decodeItemsWith (f : List Nat → Except String (NativeValue × List Nat)) :
    Nat → List Nat → Except String (List NativeValue × List Nat)
  | 0, bs => .ok ([], bs)
  | k + 1, bs => do
    let (v, bs') ← f bs
    let (vs, bs'') ← decodeItemsWith f k bs'
    .ok (v :: vs, bs'')

/-- Concatenated item encoding for array bodies. -/
def encodeItemsWith (f : NativeValue → Except String (List Nat)) :
    List NativeValue → Except String (List Nat)
  | [] => .ok []
  | v :: rest => do
    let b ← f v
    let brest ← encodeItemsWith f rest
    .ok (b ++ brest)

mutual

/-- Model of goavro `BinaryFromNative`: schema-driven encoding of a native
value.  A record field absent from the input mapping takes the schema's
declared default; a union accepts `nil` (null branch) or a single-key
mapping selecting a branch by name; an enum value must be one of the
symbols. -/
def BinaryFromNative : AvroType → NativeValue → Except String (List Nat)
  | .anull, .nnull => .ok []
  | .aboolean, .nbool b => .ok [if b then 1 else 0]
  | .aint, .nint n => .ok (encLong n)
  | .along, .nlong n => .ok (encLong n)
  | .astring, .nstr s => .ok (encStr s)
  | .arecord _ fields, .nmap m => encodeRecordFields fields m
  | .aenum _ symbols, .nstr s =>
    match symbolIndex symbols s with
    | some i => .ok (encLong i)
    | none => .error "enum: symbol not found"
  | .aarray t, .narr vs => do
    let parts ← encodeItemsWith (fun v => BinaryFromNative t v) vs
    if vs.length = 0 then .ok (encLong 0)
    else .ok (encLong vs.length ++ parts ++ encLong 0)
  | .aunion branches, .nnull => encodeUnionBranch branches 0 "null" .nnull
  | .aunion branches, .nmap [(k, v)] => encodeUnionBranch branches 0 k v
  | _, _ => .error "BinaryFromNative: datum type mismatch"

/-- Encode the fields of a record in schema order, falling back to each
field's declared default when the mapping lacks the key. -/
def encodeRecordFields :
    List (String × AvroType × Option NativeValue) → GenMap → Except String (List Nat)
  | [], _ => .ok []
  | (fname, ftype, fdefault) :: rest, m =>
    match (match m.lookup fname with
           | some v => some v
           | none => fdefault) with
    | some v => do
      let b ← BinaryFromNative ftype v
      let brest ← encodeRecordFields rest m
      .ok (b ++ brest)
    | none => .error ("record: no value and no default for field " ++ fname)

/-- Find the union branch with the given name and encode its index and
value. -/
def encodeUnionBranch :
    List AvroType → Nat → String → NativeValue → Except String (List Nat)
  | [], _, _, _ => .error "union: no matching branch"
  | b :: rest, idx, k, v =>
    if branchName b = k then do
      let bytes ← BinaryFromNative b v
      .ok (encLong idx ++ bytes)
    else encodeUnionBranch rest (idx + 1) k v

end

mutual

/-- Model of goavro `NativeFromBinary`: schema-driven decoding; returns the
native value and the unconsumed bytes.  A decoded record holds every schema
field, in schema order; a decoded union is `nil` for the null branch and a
single-key mapping otherwise.  Arrays decode the single-block form the
encoder emits. -/
def NativeFromBinary : AvroType → List Nat → Except String (NativeValue × List Nat)
  | .anull, bs => .ok (.nnull, bs)
  | .aboolean, bs =>
    match bs with
    | 0 :: rest => .ok (.nbool false, rest)
    | 1 :: rest => .ok (.nbool true, rest)
    | _ => .error "boolean: bad byte"
  | .aint, bs =>
    match decLong bs with
    | some (n, rest) => .ok (.nint n, rest)
    | none => .error "int: short buffer"
  | .along, bs =>
    match decLong bs with
    | some (n, rest) => .ok (.nlong n, rest)
    | none => .error "long: short buffer"
  | .astring, bs =>
    match decLong bs with
    | none => .error "string: short buffer"
    | some (len, rest) =>
      if len < 0 then .error "string: negative length"
      else
        match decodeChars len.toNat rest with
        | some (cs, rest') => .ok (.nstr (String.mk cs), rest')
        | none => .error "string: bad bytes"
  | .arecord _ fields, bs => do
    let (entries, rest) ← decodeRecordFields fields bs
    .ok (.nmap entries, rest)
  | .aenum _ symbols, bs =>
    match decLong bs with
    | none => .error "enum: short buffer"
    | some (i, rest) =>
      if 0 ≤ i then
        match symbols.get? i.toNat with
        | some s => .ok (.nstr s, rest)
        | none => .error "enum: index out of range"
      else .error "enum: index out of range"
  | .aarray t, bs =>
    match decLong bs with
    | none => .error "array: short buffer"
    | some (k, rest) =>
      if k = 0 then .ok (.narr [], rest)
      else if 0 < k then do
        let (vs, rest') ← decodeItemsWith (fun cur => NativeFromBinary t cur) k.toNat rest
        match decLong rest' with
        | some (0, rest'') => .ok (.narr vs, rest'')
        | _ => .error "array: bad block terminator"
      else .error "array: negative block count"
  | .aunion branches, bs =>
    match decLong bs with
    | none => .error "union: short buffer"
    | some (i, rest) =>
      if 0 ≤ i then decodeUnionAt branches i.toNat rest
      else .error "union: negative index"

/-- Decode record fields in schema order. -/
def decodeRecordFields :
    List (String × AvroType × Option NativeValue) → List Nat →
    Except String (GenMap × List Nat)
  | [], bs => .ok ([], bs)
  | (fname, ftype, _) :: rest, bs => do
    let (v, bs') ← NativeFromBinary ftype bs
    let (entries, bs'') ← decodeRecordFields rest bs'
    .ok ((fname, v) :: entries, bs'')

/-- Decode the union branch at the given index. -/
def decodeUnionAt : List AvroType → Nat → List Nat → Except String (NativeValue × List Nat)
  | [], _, _ => .error "union: index out of range"
  | b :: _, 0, bs => do
    let (v, rest) ← NativeFromBinary b bs
    .ok (mkUnionNative b v, rest)
  | _ :: rest, i + 1, bs => decodeUnionAt rest i bs

end

/-! ## Typed Go values and destination types (`avro.go` record mapper)

`GoVal` models a Go value as seen through reflection by the mapper: scalars
carry their Go type name and the optional `AvroName()` override supplied by
a `TypeNamer` implementation; structs carry their `avro`-tagged fields in
declaration order; pointers model nilable fields; slices model sequences.
`GoType` is the corresponding destination type for the decode direction. -/

/-- A Go value as walked by the record mapper.  `goType` is the reflect
type name (`"int32"`, `"bool"`, `"string"`, or a custom defined-type name);
`override` is `AvroName()` when the type implements `TypeNamer`. -/
inductive GoVal where
  | vbool (goType : String) (override : Option String) (b : Bool)
  | vint32 (goType : String) (override : Option String) (n : Int)
  | vint64 (goType : String) (override : Option String) (n : Int)
  | vstr (goType : String) (override : Option String) (s : String)
  | vstruct (goType : String) (override : Option String) (fields : List (String × GoVal))
  | vptr (elem : Option GoVal)
  | vslice (elems : List GoVal)

/-- A Go destination type for the decode direction, mirroring `GoVal`. -/
inductive GoType where
  | tbool (name : String) (override : Option String)
  | tint32 (name : String) (override : Option String)
  | tint64 (name : String) (override : Option String)
  | tstr (name : String) (override : Option String)
  | tstruct (name : String) (override : Option String) (fields : List (String × GoType))
  | tptr (elem : GoType)
  | tslice (elem : GoType)

/-- `Codec.getTypeName` from `avro.go`: the `AvroName()` override when the
value's type (by value or pointer receiver) implements `TypeNamer`,
otherwise the encoded reflect type name. -/
def getTypeName (v : GoVal) : String :=
  let (goType, override) :=
    match v with
    | .vbool g o _ => (g, o)
    | .vint32 g o _ => (g, o)
    | .vint64 g o _ => (g, o)
    | .vstr g o _ => (g, o)
    | .vstruct g o _ => (g, o)
    | .vptr _ => ("", none)
    | .vslice _ => ("", none)
  match override with
  | some n => n
  | none => DefaultTypeNameEncoder goType

/-- The union key used for a present pointee: the Avro-visible type name,
namespace-prefixed unless it is an Avro primitive (`encodeUnionHook`,
`avro.go`). -/
def resolvedUnionName (ns : String) (v : GoVal) : String :=
  let typeName := getTypeName v
  if isAvroBaseType typeName then typeName else AddNamespace ns typeName

mutual

/-- `Codec.encodeUnionHook` from `avro.go` composed with the `structs`
field walk: structs map to their tagged fields, slices map element-wise, a
nil pointer becomes the union mapping `{"null": nil}`, a present pointer a
single-key mapping keyed by the pointee's resolved name, and scalars reduce
to their base-kind native value (`convertToBaseType`). -/
def encodeUnionHook (ns : String) : GoVal → NativeValue
  | .vbool _ _ b => .nbool b
  | .vint32 _ _ n => .nint n
  | .vint64 _ _ n => .nlong n
  | .vstr _ _ s => .nstr s
  | .vstruct _ _ fields => .nmap (encodeStructFields ns fields)
  | .vptr none => .nmap [("null", .nnull)]
  | .vptr (some v) => .nmap [(resolvedUnionName ns v, encodeUnionHook ns v)]
  | .vslice elems => .narr (encodeSliceElems ns elems)

/-- The `structs.Map` walk with `TagName = "avro"` and
`EncodeHook = encodeUnionHook`: each tagged field's value through the
hook. -/
def encodeStructFields (ns : String) : List (String × GoVal) → List (String × NativeValue)
  | [] => []
  | (tag, v) :: rest => (tag, encodeUnionHook ns v) :: encodeStructFields ns rest

/-- The slice branch of `encodeUnionHook`: each element through the hook,
order preserved. -/
def encodeSliceElems (ns : String) : List GoVal → List NativeValue
  | [] => []
  | v :: rest => encodeUnionHook ns v :: encodeSliceElems ns rest

end

/-- `Codec.decodeUnionHook` from `avro.go` (without the
`CustomUnmarshaler` route, which no destination modelled here implements):
for a pointer destination, a mapping with exactly one key unwraps to its
inner value; any other data — in particular a mapping with two or more
keys — passes through unaltered. -/
def decodeUnionHook (toIsPtr : Bool) (data : NativeValue) : NativeValue :=
  if toIsPtr then
    match data with
    | .nmap [(_, v)] => v
    | _ => data
  else data

/-- Whether a destination type has pointer kind (drives the union-unwrap
branch of `decodeUnionHook`). -/
def GoType.isPtr : GoType → Bool
  | .tptr _ => true
  | _ => false

/-- Two's-complement wrap to `int32`, the effect of `reflect.Value.SetInt`
on an `int32` destination. -/
def wrap32 (n : Int) : Int :=
  (n + 2147483648) % 4294967296 - 2147483648

mutual

/-- The Go zero value of a destination type, which `mapstructure` leaves in
place when the source mapping has no entry for a field (and for `nil`
source data). -/
def zeroVal : GoType → GoVal
  | .tbool name ov => .vbool name ov false
  | .tint32 name ov => .vint32 name ov 0
  | .tint64 name ov => .vint64 name ov 0
  | .tstr name ov => .vstr name ov ""
  | .tstruct name ov fields => .vstruct name ov (zeroFields fields)
  | .tptr _ => .vptr none
  | .tslice _ => .vslice []

/-- Zero values of a struct's fields. -/
def zeroFields : List (String × GoType) → List (String × GoVal)
  | [] => []
  | (tag, t) :: rest => (tag, zeroVal t) :: zeroFields rest

end

mutual

/-- The `mapstructure` decode walk with `TagName = "avro"` and
`DecodeHook = decodeUnionHook`: nil data leaves the zero value; otherwise
the hook runs, then the data is assigned by destination kind — structs by
tag lookup (missing tags keep their zero value, extra keys are ignored),
pointers allocate and decode the pointee, slices decode element-wise,
integers convert with `int32` wrap-around, and mismatched kinds fail. -/
def msDecode (T : GoType) (data : NativeValue) : Except String GoVal :=
  match data with
  | .nnull => .ok (zeroVal T)
  | _ =>
    match T, decodeUnionHook T.isPtr data with
    | .tptr T', d =>
      match d with
      | .nnull => .ok (.vptr (some (zeroVal T')))
      | _ => do
        let v ← msDecode T' d
        .ok (.vptr (some v))
    | .tbool name ov, .nbool b => .ok (.vbool name ov b)
    | .tint32 name ov, .nint n => .ok (.vint32 name ov (wrap32 n))
    | .tint32 name ov, .nlong n => .ok (.vint32 name ov (wrap32 n))
    | .tint64 name ov, .nint n => .ok (.vint64 name ov n)
    | .tint64 name ov, .nlong n => .ok (.vint64 name ov n)
    | .tstr name ov, .nstr s => .ok (.vstr name ov s)
    | .tstruct name ov tfields, .nmap m => do
      let fs ← msDecodeFields tfields m
      .ok (.vstruct name ov fs)
    | .tslice T', .narr vs => do
      let elems ← msDecodeElems T' vs
      .ok (.vslice elems)
    | _, _ => .error "mapstructure: unconvertible type"

/-- Decode a struct's fields from the source mapping by tag. -/
def msDecodeFields (tfields : List (String × GoType)) (m : GenMap) :
    Except String (List (String × GoVal)) :=
  match tfields with
  | [] => .ok []
  | (tag, fT) :: rest => do
    let v ← match m.lookup tag with
            | some d => msDecode fT d
            | none => .ok (zeroVal fT)
    let others ← msDecodeFields rest m
    .ok ((tag, v) :: others)

/-- Decode slice elements in order. -/
def msDecodeElems (T : GoType) : List NativeValue → Except String (List GoVal)
  | [] => .ok []
  | d :: rest => do
    let v ← msDecode T d
    let vs ← msDecodeElems T rest
    .ok (v :: vs)

end

/-! ## The `Codec` type (`avro.go`) -/

/-- `Codec` from `avro.go`: a goavro codec (the schema), the namespace read
from the schema definition at construction, and the type-name encoder
(fixed here to `DefaultTypeNameEncoder`, as installed by `NewCodec`). -/
structure Codec where
  schema : AvroType
  Namespace : String

/-- `Codec.marshal` from `avro.go`: dereference a top-level pointer, run
the value through `encodeUnionHook`, hand the native value to
`BinaryFromNative`. -/
def Codec.Marshal (c : Codec) : GoVal → Except String (List Nat)
  | .vptr (some v) => BinaryFromNative c.schema (encodeUnionHook c.Namespace v)
  | .vptr none => .error "marshal: invalid value"
  | v => BinaryFromNative c.schema (encodeUnionHook c.Namespace v)

/-- `Codec.unmarshal` from `avro.go` into a typed destination:
`NativeFromBinary`, then the `mapstructure` walk (trailing bytes are
ignored, as in the source). -/
def Codec.Unmarshal (c : Codec) (T : GoType) (bs : List Nat) : Except String GoVal := do
  let (m, _) ← NativeFromBinary c.schema bs
  msDecode T m

/-- `Codec.unmarshal` into a generic `map[string]interface{}` destination:
the `mapstructure` walk copies a decoded record mapping through unchanged
(the hook is the identity for a non-pointer destination). -/
def Codec.UnmarshalMap (c : Codec) (bs : List Nat) : Except String GenMap :=
  match NativeFromBinary c.schema bs with
  | .ok (.nmap m, _) => .ok m
  | .ok _ => .error "mapstructure: cannot decode into map"
  | .error e => .error e

/-! ## The registry-backed codec cache (`codec_registry.go`)

`SchemaID` is Go's `int32`; it is modelled as `Int`, with the two's
complement reduction made explicit where the id crosses the wire.  The
remote `SchemaRegistry` collaborator's `GetSchemaByID` is modelled as a
lookup table from id to raw schema text; a raw schema either parses
(`RawSchema.wf`, carrying the parsed schema and its declared namespace) or
does not (`RawSchema.malformed`), modelling `NewCodec` failure. -/

/-- `UnknownID` from `codec_registry.go`: the id value meaning "no schema
configured for encoding". -/
def UnknownID : Int := -1

/-- `MagicByte` from `codec_registry.go`. -/
def MagicByte : Nat := 0

/-- Raw schema text as fetched from the registry: either it parses into a
schema with a namespace, or `goavro.NewCodec` rejects it. -/
inductive RawSchema where
  | wf (schema : AvroType) (ns : String)
  | malformed

/-- `NewCodec` from `avro.go`: parse the schema text, read its namespace,
install the default type-name encoder. -/
def NewCodec : RawSchema → Except String Codec
  | .wf s ns => .ok ⟨s, ns⟩
  | .malformed => .error "NewCodec error"

/-- Errors surfaced by the registry-backed cache.  `protocolMagic` is the
magic-byte mismatch, `protocolTrunc` the `binary.Read ID error` on a
partially present id (`io.ErrUnexpectedEOF`); both are protocol errors. -/
inductive RegErr where
  | protocolMagic (b : Nat)
  | protocolTrunc
  | errNoEncodeSchema
  | registryFetch (id : Int)
  | newCodecErr (id : Int)
  | missingCodec (id : Int)
  | codecErr (msg : String)
  | outOfFuel
deriving DecidableEq

/-- Protocol errors per the error taxonomy: bad magic byte or truncated
header. -/
def RegErr.isProtocol : RegErr → Bool
  | .protocolMagic _ => true
  | .protocolTrunc => true
  | _ => false

/-- `CodecRegistry` from `codec_registry.go`: the id-to-codec cache, the
remote registry backend, and the current encoding schema id. -/
structure CodecRegistry where
  codecByID : List (Int × Codec)
  Registry : List (Int × RawSchema)
  SchemaID : Int

/-- What `CodecRegistry.Marshal` accepts: a typed Go value, or the generic
map produced by the reconciliation path. -/
inductive MarshalData where
  | goval (v : GoVal)
  | genmap (m : GenMap)

/-- Dispatch of `Codec.Marshal` over the two payload forms: a generic map
passes through `encodeUnionHook`'s default branch unchanged and is handed
to `BinaryFromNative` directly. -/
def Codec.MarshalData (c : Codec) : MarshalData → Except String (List Nat)
  | .goval v => c.Marshal v
  | .genmap m => BinaryFromNative c.schema (.nmap m)

/-- `CodecRegistry.getCodecByID` from `codec_registry.go`: a cache hit
returns the stored codec and leaves the state unchanged; a miss fetches the
raw schema from the registry (the third component lists the ids fetched
remotely), instantiates a codec, and inserts it under the id; fetch or
`NewCodec` failure returns an error and leaves the cache unchanged. -/
def CodecRegistry.getCodecByID (r : CodecRegistry) (id : Int) :
    Except RegErr Codec × CodecRegistry × List Int :=
  match r.codecByID.lookup id with
  | some codec => (.ok codec, r, [])
  | none =>
    match r.Registry.lookup id with
    | none => (.error (.registryFetch id), r, [id])
    | some raw =>
      match NewCodec raw with
      | .error _ => (.error (.newCodecErr id), r, [id])
      | .ok codec => (.ok codec, { r with codecByID := (id, codec) :: r.codecByID }, [id])

/-- `CodecRegistry.Marshal` from `codec_registry.go`: refuse to encode
when no schema id is configured; otherwise write the 5-byte header (magic
byte, then the id big-endian) followed by the codec-produced body.  A
missing cache entry for the current id is a fault (`nil` dereference in
Go). -/
def CodecRegistry.Marshal (r : CodecRegistry) (data : MarshalData) :
    Except RegErr (List Nat) :=
  if r.SchemaID = UnknownID then .error .errNoEncodeSchema
  else
    match r.codecByID.lookup r.SchemaID with
    | none => .error (.missingCodec r.SchemaID)
    | some codec =>
      match codec.MarshalData data with
      | .error e => .error (.codecErr e)
      | .ok byteData => .ok (MagicByte :: (int32BE r.SchemaID ++ byteData))

/-- The body of `CodecRegistry.Unmarshal` after header parsing: check the
magic byte, resolve the codec for the header id (cache miss fetches from
the registry), then either decode the body directly (header id equal to
the current id, or no current id configured) or reconcile: decode the body
with the resolved codec into a generic map, re-encode that map with the
current codec, and recursively decode the fresh bytes. -/
def CodecRegistry.UnmarshalBody
    (recurse : CodecRegistry → List Nat → CodecRegistry × Except RegErr GenMap)
    (r : CodecRegistry) (magic : Nat) (id : Int) (body : List Nat) :
    CodecRegistry × Except RegErr GenMap :=
  if magic ≠ MagicByte then (r, .error (.protocolMagic magic))
  else
    match r.getCodecByID id with
    | (.error e, r', _) => (r', .error e)
    | (.ok codec, r', _) =>
      if r'.SchemaID ≠ UnknownID ∧ id ≠ r'.SchemaID then
        match codec.UnmarshalMap body with
        | .error e => (r', .error (.codecErr e))
        | .ok tmpTo =>
          match r'.Marshal (.genmap tmpTo) with
          | .error e => (r', .error e)
          | .ok from2 => recurse r' from2
      else
        match codec.UnmarshalMap body with
        | .error e => (r', .error (.codecErr e))
        | .ok m => (r', .ok m)

/-- `CodecRegistry.Unmarshal` from `codec_registry.go`, with explicit fuel
bounding the reconciliation recursion.  Header parsing follows
`binary.Read` with `io.EOF` ignored: an empty input leaves both the magic
byte and the id at zero; a single byte leaves the id at zero; one to three
id bytes raise `io.ErrUnexpectedEOFException` (`binary.Read ID error`),
returned before the magic-byte check; otherwise the id is the big-endian
signed 32-bit value of bytes 1–4 and the body is everything after byte
4. -/
def CodecRegistry.UnmarshalF : Nat → CodecRegistry → List Nat →
    CodecRegistry × Except RegErr GenMap
  | 0, r, _ => (r, .error .outOfFuel)
  | fuel + 1, r, from_ =>
    match from_ with
    | [] => CodecRegistry.UnmarshalBody (CodecRegistry.UnmarshalF fuel) r 0 0 []
    | [b] => CodecRegistry.UnmarshalBody (CodecRegistry.UnmarshalF fuel) r b 0 []
    | b :: b3 :: b2 :: b1 :: b0 :: body =>
      CodecRegistry.UnmarshalBody (CodecRegistry.UnmarshalF fuel) r b
        (int32BEDecode b3 b2 b1 b0) body
    | _ :: _ => (r, .error .protocolTrunc)

/-- Whether a result is the fuel-exhaustion artifact of the embedding (the
Go code has no such case; reaching it would mean unbounded reconciliation
recursion). -/
def isOutOfFuel (e : Except RegErr GenMap) : Bool :=
  match e with
  | .error .outOfFuel => true
  | _ => false

/-! ## Encodability: when a typed value fits a schema and a destination type

`compat ns t T v` states that the Go value `v` is encodable under schema
`t` and that the destination type `T` matches it: names and overrides
agree, struct tags align with the schema's record fields (which have
pairwise-distinct names), a pointer field lines up with a union branch
found by the value's resolved Avro name, an enum value is one of the
symbols, and an `int32` value is within range.  This is the side condition
of the round-trip property. -/

/-- Pairwise distinctness of a list of names. -/
def distinctStrings : List String → Bool
  | [] => true
  | s :: rest => !(rest.contains s) && distinctStrings rest

/-- For an absent pointer the union must resolve `"null"` to the null
branch. -/
def compatUnionNull : List AvroType → Bool
  | [] => false
  | b :: rest =>
    if branchName b = "null" then
      match b with
      | .anull => true
      | _ => false
    else compatUnionNull rest

/-- The first union branch carrying a given Avro-visible name, with its
index. -/
def findUnionBranch : List AvroType → String → Option (Nat × AvroType)
  | [], _ => none
  | b :: rest, k =>
    if branchName b = k then some (0, b)
    else
      match findUnionBranch rest k with
      | some (i, b') => some (i + 1, b')
      | none => none

mutual

/-- Encodability of a Go value under a schema, with a matching destination
type. -/
def compat (ns : String) : AvroType → GoType → GoVal → Bool
  | .aboolean, .tbool name ov, .vbool gn gov _ => gn == name && gov == ov
  | .aint, .tint32 name ov, .vint32 gn gov n =>
    gn == name && gov == ov && wrap32 n == n
  | .along, .tint64 name ov, .vint64 gn gov _ => gn == name && gov == ov
  | .astring, .tstr name ov, .vstr gn gov _ => gn == name && gov == ov
  | .aenum _ symbols, .tstr name ov, .vstr gn gov s =>
    gn == name && gov == ov && symbols.contains s
  | .arecord _ sfields, .tstruct name ov tfields, .vstruct gn gov vfields =>
    gn == name && gov == ov && distinctStrings (sfields.map (fun f => f.1)) &&
      compatFields ns sfields tfields vfields
  | .aarray t, .tslice T', .vslice elems => compatElems ns t T' elems
  | .aunion branches, .tptr _, .vptr none => compatUnionNull branches
  | .aunion branches, .tptr T', .vptr (some v) =>
    (match findUnionBranch branches (resolvedUnionName ns v) with
     | some (_, b) => compat ns b T' v
     | none => false)
  | _, _, _ => false

/-- Fields of a record, a struct type and a struct value, aligned by
position with matching tags. -/
def compatFields (ns : String) :
    List (String × AvroType × Option NativeValue) → List (String × GoType) →
    List (String × GoVal) → Bool
  | [], [], [] => true
  | (fname, ftype, _) :: srest, (ttag, fT) :: trest, (vtag, fv) :: vrest =>
    fname == ttag && vtag == ttag && compat ns ftype fT fv &&
      compatFields ns srest trest vrest
  | _, _, _ => false

/-- Elementwise encodability of slice elements. -/
def compatElems (ns : String) (t : AvroType) (T : GoType) : List GoVal → Bool
  | [] => true
  | v :: rest => compat ns t T v && compatElems ns t T rest

end

/-! ## The native value the codec hands back for an encoded value

Under `compat`, decoding the encoding of `v` produces `decNative ns t v`:
the same tree the encode hook produces, except that a decoded record lists
every schema field in schema order and the null union branch comes back as
`nil` rather than `{"null": nil}`. -/

mutual

/-- The native value `NativeFromBinary` produces for the encoding of `v`
(meaningful under `compat`). -/
def decNative (ns : String) : AvroType → GoVal → NativeValue
  | .aboolean, .vbool _ _ b => .nbool b
  | .aint, .vint32 _ _ n => .nint n
  | .along, .vint64 _ _ n => .nlong n
  | .astring, .vstr _ _ s => .nstr s
  | .aenum _ _, .vstr _ _ s => .nstr s
  | .arecord _ sfields, .vstruct _ _ vfields => .nmap (decNativeFields ns sfields vfields)
  | .aarray t, .vslice elems => .narr (decNativeElems ns t elems)
  | .aunion _, .vptr none => .nnull
  | .aunion branches, .vptr (some v) =>
    (match findUnionBranch branches (resolvedUnionName ns v) with
     | some (_, b) => mkUnionNative b (decNative ns b v)
     | none => .nnull)
  | _, _ => .nnull

/-- Decoded record entries: schema field names, in schema order. -/
def decNativeFields (ns : String) :
    List (String × AvroType × Option NativeValue) → List (String × GoVal) → GenMap
  | (fname, ftype, _) :: srest, (_, fv) :: vrest =>
    (fname, decNative ns ftype fv) :: decNativeFields ns srest vrest
  | _, _ => []

/-- Decoded array items, in order. -/
def decNativeElems (ns : String) (t : AvroType) : List GoVal → List NativeValue
  | [] => []
  | v :: rest => decNative ns t v :: decNativeElems ns t rest

end

/-- A mapping contains all the given pairs (keys bound to exactly these
values). -/
def MapHasPairs (m : GenMap) : GenMap → Prop
  | [] => True
  | (k, x) :: rest => m.lookup k = some x ∧ MapHasPairs m rest

/-- Whether a Go value is a pointer (the form `Codec.marshal` dereferences
at top level). -/
def GoVal.isPtr : GoVal → Bool
  | .vptr _ => true
  | _ => false

/-! ## Concrete instances used by the claims' examples -/

/-- The v1 schema of the forward-evolution example: `{name, age}`. -/
def exampleV1 : AvroType :=
  .arecord "someone" [("name", .astring, none), ("age", .aint, none)]

/-- The v2 schema of the forward-evolution example:
`{name, age, height:int default=150}`. -/
def exampleV2 : AvroType :=
  .arecord "someone"
    [("name", .astring, none), ("age", .aint, none),
     ("height", .aint, some (.nint 150))]

/-- A registry-backed cache configured on v2 (id 2), with the registry
backend able to serve both schema texts. -/
def exampleRegistry : CodecRegistry :=
  ⟨[(2, ⟨exampleV2, ""⟩)],
   [(1, .wf exampleV1 ""), (2, .wf exampleV2 "")], 2⟩

/-- A cache whose current schema is an empty record under id 0, used to
decode degenerate inputs. -/
def emptyRecordRegistry : CodecRegistry :=
  ⟨[(0, ⟨.arecord "r" [], ""⟩)], [], 0⟩

/-- Schema of the round-trip example: a namespaced record with scalars, two
optional (union) fields, an array, an enum and a nested record reached
through a pointer. -/
def examplePersonSchema : AvroType :=
  .arecord "person"
    [("name", .astring, none),
     ("age", .aint, none),
     ("nick", .aunion [.anull, .astring], none),
     ("height", .aunion [.anull, .aint], none),
     ("tags", .aarray .astring, none),
     ("color", .aenum "color" ["RED", "GREEN"], none),
     ("addr", .aunion [.anull,
        .arecord "my.ns.address" [("city", .astring, none)]], none)]

/-- Destination Go type of the round-trip example. -/
def examplePersonType : GoType :=
  .tstruct "Person" none
    [("name", .tstr "string" none),
     ("age", .tint32 "int32" none),
     ("nick", .tptr (.tstr "string" none)),
     ("height", .tptr (.tint32 "int32" none)),
     ("tags", .tslice (.tstr "string" none)),
     ("color", .tstr "Color" none),
     ("addr", .tptr (.tstruct "Address" none [("city", .tstr "string" none)]))]

/-- Value of the round-trip example. -/
def examplePersonVal : GoVal :=
  .vstruct "Person" none
    [("name", .vstr "string" none "bob"),
     ("age", .vint32 "int32" none 33),
     ("nick", .vptr (some (.vstr "string" none "b"))),
     ("height", .vptr none),
     ("tags", .vslice [.vstr "string" none "x", .vstr "string" none "y"]),
     ("color", .vstr "Color" none "RED"),
     ("addr", .vptr (some (.vstruct "Address" none
        [("city", .vstr "string" none "paris")])))]

/-! ## Round-trip lemmas for the byte-level encodings -/

theorem varintEncF_roundtrip (fuel : Nat) :
    ∀ n rest, n ≤ fuel → varintDec (varintEncF fuel n ++ rest) = some (n, rest) := by
  induction fuel with
  | zero =>
    intro n rest hn
    interval_cases n
    simp [varintEncF, varintDec]
  | succ fuel ih =>
    intro n rest hn
    by_cases h : n < 128
    · simp [varintEncF, h, varintDec]
    · have hdiv : n / 128 ≤ fuel := by omega
      have hb : ¬(n % 128 + 128 < 128) := by omega
      simp only [varintEncF, if_neg h, List.cons_append, varintDec, if_neg hb,
        ih (n / 128) rest hdiv]
      have : n % 128 + 128 - 128 + 128 * (n / 128) = n := by omega
      rw [this]

theorem varintDec_enc (n : Nat) (rest : List Nat) :
    varintDec (varintEnc n ++ rest) = some (n, rest) :=
  varintEncF_roundtrip n n rest le_rfl

theorem unzigzag_zigzag (n : Int) : unzigzag (zigzag n) = n := by
  unfold zigzag unzigzag
  by_cases h : 0 ≤ n
  · simp only [if_pos h]
    omega
  · simp only [if_neg h]
    omega

theorem decLong_enc (n : Int) (rest : List Nat) :
    decLong (encLong n ++ rest) = some (n, rest) := by
  simp [decLong, encLong, varintDec_enc, unzigzag_zigzag]

theorem char_valid_toNat (c : Char) : Nat.isValidChar c.toNat := c.valid

theorem decodeChars_enc (cs : List Char) :
    ∀ rest, decodeChars cs.length (encodeChars cs ++ rest) = some (cs, rest) := by
  induction cs with
  | nil => intro rest; simp [decodeChars, encodeChars]
  | cons c cs ih =>
    intro rest
    simp only [List.length_cons, encodeChars, List.append_assoc, decodeChars,
      varintDec_enc]
    simp [char_valid_toNat c, ih rest, Char.ofNat_toNat]

theorem nativeFromBinary_encStr (s : String) (rest : List Nat) :
    NativeFromBinary .astring (encStr s ++ rest) = .ok (.nstr s, rest) := by
  have hlen : ¬((s.length : Int) < 0) := by omega
  have hdata : s.data.length = s.length := rfl
  simp only [NativeFromBinary, encStr, List.append_assoc, decLong_enc, hlen, if_false]
  have : (s.length : Int).toNat = s.length := by omega
  rw [this, ← hdata, decodeChars_enc s.data rest]

theorem int32BE_length (n : Int) : (int32BE n).length = 4 := rfl

theorem int32BEDecode_int32BE (n : Int) (h : -2147483648 ≤ n ∧ n < 2147483648) :
    (match int32BE n with
     | [b3, b2, b1, b0] => int32BEDecode b3 b2 b1 b0
     | _ => 0) = n := by
  have h0 : (0 : Int) ≤ n % 4294967296 := Int.emod_nonneg n (by norm_num)
  have h1 : n % 4294967296 < 4294967296 := Int.emod_lt_of_pos n (by norm_num)
  obtain ⟨u, hu⟩ : ∃ u : Nat, (n % 4294967296).toNat = u := ⟨_, rfl⟩
  have hcast : (u : Int) = n % 4294967296 := by omega
  simp only [int32BE, toUInt32, int32BEDecode, hu]
  have hsum : u / 16777216 % 256 * 16777216 + u / 65536 % 256 * 65536 +
      u / 256 % 256 * 256 + u % 256 = u := by omega
  rw [hsum]
  split_ifs with h2
  · show (u : Int) = n
    omega
  · show (u : Int) - 4294967296 = n
    omega

/-! ## Supporting lemmas for the record-mapper round trip -/

theorem symbolIndex_spec (symbols : List String) (s : String)
    (h : symbols.contains s = true) :
    ∃ i, symbolIndex symbols s = some i ∧ symbols[i]? = some s := by
  induction symbols with
  | nil => simp at h
  | cons a rest ih =>
    by_cases ha : a = s
    · exact ⟨0, by simp [symbolIndex, ha], by simp [ha]⟩
    · have h' : rest.contains s = true := by
        simp only [List.contains_cons] at h
        rcases Bool.or_eq_true_iff.mp h with h1 | h1
        · exact absurd (by simpa using h1 : s = a).symm ha
        · exact h1
      obtain ⟨i, h1, h2⟩ := ih h'
      exact ⟨i + 1, by simp [symbolIndex, ha, h1], by simpa using h2⟩

theorem encodeSliceElems_length (ns : String) (l : List GoVal) :
    (encodeSliceElems ns l).length = l.length := by
  induction l with
  | nil => rfl
  | cons v rest ih => simp [encodeSliceElems, ih]

theorem encodeStructFields_keys (ns : String) (l : List (String × GoVal)) :
    (encodeStructFields ns l).map Prod.fst = l.map Prod.fst := by
  induction l with
  | nil => rfl
  | cons e rest ih =>
    cases e
    simp [encodeStructFields, ih]

theorem compatFields_names (ns : String) :
    ∀ (sfs : List (String × AvroType × Option NativeValue))
      (tfs : List (String × GoType)) (vfs : List (String × GoVal)),
      compatFields ns sfs tfs vfs = true →
      vfs.map Prod.fst = sfs.map (fun f => f.1) := by
  intro sfs
  induction sfs with
  | nil =>
    intro tfs vfs h
    cases tfs <;> cases vfs <;> simp_all [compatFields]
  | cons sf srest ih =>
    intro tfs vfs h
    obtain ⟨fname, ftype, fd⟩ := sf
    cases tfs with
    | nil => simp [compatFields] at h
    | cons tf trest =>
      obtain ⟨ttag, fT⟩ := tf
      cases vfs with
      | nil => simp [compatFields] at h
      | cons vf vrest =>
        obtain ⟨vtag, fv⟩ := vf
        simp only [compatFields, Bool.and_eq_true, beq_iff_eq] at h
        obtain ⟨⟨⟨h1, h2⟩, _⟩, h4⟩ := h
        simp [h1, h2, ih trest vrest h4]

theorem mapHasPairs_lift (m : GenMap) (k : String) (x : NativeValue) :
    ∀ p : GenMap, MapHasPairs m p → (∀ e ∈ p, e.1 ≠ k) →
      MapHasPairs ((k, x) :: m) p := by
  intro p
  induction p with
  | nil => intro _ _; trivial
  | cons e rest ih =>
    obtain ⟨k', x'⟩ := e
    intro h hk
    obtain ⟨h1, h2⟩ := h
    refine ⟨?_, ih h2 (fun e he => hk e (List.mem_cons_of_mem _ he))⟩
    have hne : k' ≠ k := hk (k', x') (List.mem_cons_self _ _)
    have hbe : (k' == k) = false := by simpa using hne
    simp [List.lookup, hbe, h1]

theorem distinct_self_pairs :
    ∀ m : GenMap, distinctStrings (m.map Prod.fst) = true → MapHasPairs m m := by
  intro m
  induction m with
  | nil => intro _; trivial
  | cons e rest ih =>
    obtain ⟨k, x⟩ := e
    intro h
    simp only [List.map_cons, distinctStrings, Bool.and_eq_true, Bool.not_eq_true'] at h
    obtain ⟨hnc, hd⟩ := h
    have hmem : ∀ e ∈ rest, e.1 ≠ k := by
      intro e he heq
      have : k ∈ rest.map Prod.fst := heq ▸ List.mem_map_of_mem Prod.fst he
      have h3 : (List.map Prod.fst rest).contains k = true :=
        List.elem_eq_true_of_mem this
      rw [h3] at hnc
      exact Bool.true_eq_false.mp hnc
    exact ⟨by simp [List.lookup], mapHasPairs_lift _ _ _ _ (ih hd) hmem⟩

theorem exceptBind_ok {epsilon alpha beta : Type} (a : alpha) (f : alpha → Except epsilon beta) :
    (Except.ok a : Except epsilon alpha) >>= f = f a := rfl

theorem exceptBind_err {epsilon alpha beta : Type} (e : epsilon) (f : alpha → Except epsilon beta) :
    (Except.error e : Except epsilon alpha) >>= f = Except.error e := rfl

theorem compatUnionNull_spec :
    ∀ branches, compatUnionNull branches = true →
      ∀ idx, ∃ j, encodeUnionBranch branches idx "null" .nnull =
          .ok (encLong ((idx + j : Nat))) ∧
        ∀ bs, decodeUnionAt branches j bs = .ok (.nnull, bs) := by
  intro branches
  induction branches with
  | nil => intro h; simp [compatUnionNull] at h
  | cons b rest ih =>
    intro h idx
    by_cases hb : branchName b = "null"
    · simp only [compatUnionNull, if_pos hb] at h
      cases b <;> simp at h
      refine ⟨0, ?_, ?_⟩
      · simp [encodeUnionBranch, branchName, BinaryFromNative, exceptBind_ok]
      · intro bs
        simp [decodeUnionAt, NativeFromBinary, mkUnionNative, exceptBind_ok]
    · simp only [compatUnionNull, if_neg hb] at h
      obtain ⟨j, h1, h2⟩ := ih h (idx + 1)
      refine ⟨j + 1, ?_, ?_⟩
      · rw [show idx + (j + 1) = idx + 1 + j from by omega]
        simp [encodeUnionBranch, hb, h1]
      · intro bs
        simp [decodeUnionAt, h2 bs]

theorem encodeUnionBranch_eq_find (hv : NativeValue) :
    ∀ (branches : List AvroType) (idx : Nat) (k : String),
      encodeUnionBranch branches idx k hv =
        (match findUnionBranch branches k with
         | some (i, b) =>
           (match BinaryFromNative b hv with
            | .ok bs => .ok (encLong ((idx + i : Nat)) ++ bs)
            | .error e => .error e)
         | none => .error "union: no matching branch") := by
  intro branches
  induction branches with
  | nil => intro idx k; rfl
  | cons b rest ih =>
    intro idx k
    by_cases hb : branchName b = k
    · simp only [encodeUnionBranch, if_pos hb, findUnionBranch]
      cases BinaryFromNative b hv <;> simp [exceptBind_ok, exceptBind_err]
    · simp only [encodeUnionBranch, if_neg hb, findUnionBranch, ih (idx + 1) k]
      cases hf : findUnionBranch rest k with
      | none => simp
      | some ib =>
        obtain ⟨i, b'⟩ := ib
        simp only
        rw [show idx + 1 + i = idx + (i + 1) from by omega]

theorem decodeUnionAt_find :
    ∀ (branches : List AvroType) (k : String) (i : Nat) (b : AvroType),
      findUnionBranch branches k = some (i, b) →
      ∀ bs, decodeUnionAt branches i bs =
        (match NativeFromBinary b bs with
         | .ok (v, r) => .ok (mkUnionNative b v, r)
         | .error e => .error e) := by
  intro branches
  induction branches with
  | nil => intro k i b h; simp [findUnionBranch] at h
  | cons b0 rest ih =>
    intro k i b h bs
    by_cases hb : branchName b0 = k
    · simp only [findUnionBranch, if_pos hb, Option.some.injEq, Prod.mk.injEq] at h
      obtain ⟨hi, hb'⟩ := h
      subst hb'
      rw [← hi]
      simp only [decodeUnionAt]
      cases hnf : NativeFromBinary b0 bs with
      | ok vr =>
        obtain ⟨v, r⟩ := vr
        simp [exceptBind_ok]
      | error e => simp [exceptBind_err]
    · simp only [findUnionBranch, if_neg hb] at h
      cases hf : findUnionBranch rest k with
      | none => rw [hf] at h; simp at h
      | some ib =>
        obtain ⟨i', b'⟩ := ib
        rw [hf] at h
        simp only [Option.some.injEq, Prod.mk.injEq] at h
        obtain ⟨hi, hb'⟩ := h
        subst hb'
        rw [← hi]
        simp [decodeUnionAt, ih k i' b' hf bs]

/-- Joint round trip through the Binary Codec: under `compat`, the encode
hook's native value encodes successfully and decoding the bytes returns
`decNative` with the remaining input untouched. -/
theorem encode_decode_native (ns : String) :
    ∀ (t : AvroType) (T : GoType) (v : GoVal), compat ns t T v = true →
      ∃ bs, BinaryFromNative t (encodeUnionHook ns v) = .ok bs ∧
        ∀ rest, NativeFromBinary t (bs ++ rest) = .ok (decNative ns t v, rest) := by
  refine compat.induct ns
    (fun t T v => compat ns t T v = true →
      ∃ bs, BinaryFromNative t (encodeUnionHook ns v) = .ok bs ∧
        ∀ rest, NativeFromBinary t (bs ++ rest) = .ok (decNative ns t v, rest))
    (fun t T elems => compatElems ns t T elems = true →
      ∃ bs, encodeItemsWith (fun v => BinaryFromNative t v)
          (encodeSliceElems ns elems) = .ok bs ∧
        ∀ rest, decodeItemsWith (fun cur => NativeFromBinary t cur) elems.length
          (bs ++ rest) = .ok (decNativeElems ns t elems, rest))
    (fun sfs tfs vfs => ∀ m, compatFields ns sfs tfs vfs = true →
      MapHasPairs m (encodeStructFields ns vfs) →
      ∃ bs, encodeRecordFields sfs m = .ok bs ∧
        ∀ rest, decodeRecordFields sfs (bs ++ rest) =
          .ok (decNativeFields ns sfs vfs, rest))
    ?hbool ?hint ?hlong ?hstr ?henum ?hrec ?harr ?hunone ?husfound ?husnone
    ?hcatch ?hfnil ?hfcons ?hfcatch ?henil ?hecons
  case hbool =>
    intro name ov gn gov b _
    refine ⟨[if b then 1 else 0], by simp [encodeUnionHook, BinaryFromNative], ?_⟩
    intro rest
    cases b <;> simp [encodeUnionHook, NativeFromBinary, decNative]
  case hint =>
    intro name ov gn gov n _
    refine ⟨encLong n, by simp [encodeUnionHook, BinaryFromNative], ?_⟩
    intro rest
    simp [encodeUnionHook, NativeFromBinary, decLong_enc, decNative]
  case hlong =>
    intro name ov gn gov n _
    refine ⟨encLong n, by simp [encodeUnionHook, BinaryFromNative], ?_⟩
    intro rest
    simp [encodeUnionHook, NativeFromBinary, decLong_enc, decNative]
  case hstr =>
    intro name ov gn gov s _
    refine ⟨encStr s, by simp [encodeUnionHook, BinaryFromNative], ?_⟩
    intro rest
    simpa [encodeUnionHook, decNative] using nativeFromBinary_encStr s rest
  case henum =>
    intro name symbols name1 ov gn gov s hc
    simp only [compat, Bool.and_eq_true, beq_iff_eq] at hc
    obtain ⟨⟨h1, h2⟩, h3⟩ := hc
    obtain ⟨i, hidx, hget⟩ := symbolIndex_spec symbols s h3
    refine ⟨encLong i, by simp [encodeUnionHook, BinaryFromNative, hidx], ?_⟩
    intro rest
    simp [encodeUnionHook, NativeFromBinary, decLong_enc, hget, decNative]
  case hrec =>
    intro name sfields name1 ov tfields gn gov vfields ih hc
    simp only [compat, Bool.and_eq_true, beq_iff_eq] at hc
    obtain ⟨⟨⟨h1, h2⟩, hdist⟩, hcf⟩ := hc
    have hkeys : (encodeStructFields ns vfields).map Prod.fst =
        sfields.map (fun f => f.1) := by
      rw [encodeStructFields_keys]
      exact compatFields_names ns sfields tfields vfields hcf
    have hpairs : MapHasPairs (encodeStructFields ns vfields)
        (encodeStructFields ns vfields) :=
      distinct_self_pairs _ (by rw [hkeys]; exact hdist)
    obtain ⟨bs, henc, hdec⟩ := ih (encodeStructFields ns vfields) hcf hpairs
    refine ⟨bs, by simp [encodeUnionHook, BinaryFromNative, henc], ?_⟩
    intro rest
    simp [NativeFromBinary, hdec rest, decNative, encodeUnionHook, exceptBind_ok]
  case harr =>
    intro t T' elems ih hc
    simp only [compat] at hc
    obtain ⟨parts, hencp, hdecp⟩ := ih hc
    cases elems with
    | nil =>
      refine ⟨encLong 0, ?_, ?_⟩
      · simp [encodeUnionHook, encodeSliceElems, BinaryFromNative, encodeItemsWith,
          exceptBind_ok]
      · intro rest
        simp [NativeFromBinary, decLong_enc, decNative, decNativeElems,
          encodeUnionHook, encodeSliceElems]
    | cons v0 vrest =>
      have hlen : (encodeSliceElems ns (v0 :: vrest)).length = vrest.length + 1 := by
        rw [encodeSliceElems_length]; rfl
      refine ⟨encLong ((vrest.length + 1 : Nat)) ++ parts ++ encLong 0, ?_, ?_⟩
      · simp only [encodeUnionHook, BinaryFromNative]
        rw [hencp]
        simp [hlen, exceptBind_ok]
      · intro rest
        have h1 : ¬((vrest.length + 1 : Nat) : Int) = 0 := by omega
        have h2 : (0 : Int) < ((vrest.length + 1 : Nat) : Int) := by omega
        simp only [encodeUnionHook, NativeFromBinary, List.append_assoc, decLong_enc,
          h1, if_false, h2, if_true, Int.toNat_natCast]
        have := hdecp (encLong 0 ++ rest)
        simp only [List.length_cons] at this
        rw [this]
        simp [decLong_enc, decNative, exceptBind_ok]
  case hunone =>
    intro branches elem hc
    simp only [compat] at hc
    obtain ⟨j, henc, hdec⟩ := compatUnionNull_spec branches hc 0
    refine ⟨encLong ((j : Nat)), ?_, ?_⟩
    · simp only [encodeUnionHook, BinaryFromNative]
      simpa using henc
    · intro rest
      simp [encodeUnionHook, NativeFromBinary, decLong_enc, hdec, decNative]
  case husfound =>
    intro branches T' v i b' hf ih hc
    simp only [compat, hf] at hc
    obtain ⟨bs, henc, hdec⟩ := ih hc
    refine ⟨encLong ((i : Nat)) ++ bs, ?_, ?_⟩
    · simp only [encodeUnionHook, BinaryFromNative,
        encodeUnionBranch_eq_find (encodeUnionHook ns v) branches 0
          (resolvedUnionName ns v), hf, henc]
      simp
    · intro rest
      simp only [encodeUnionHook, NativeFromBinary, List.append_assoc, decLong_enc]
      have h0 : (0 : Int) ≤ ((i : Nat) : Int) := by omega
      simp only [h0, if_true, Int.toNat_natCast,
        decodeUnionAt_find branches (resolvedUnionName ns v) i b' hf, hdec rest]
      simp [decNative, hf]
  case husnone =>
    intro branches T' v hf hc
    simp only [compat, hf] at hc
    exact absurd hc (by simp)
  case hcatch =>
    intro v x x1 h1 h2 h3 h4 h5 h6 h7 h8 h9 hc
    exfalso
    rw [compat.eq_def] at hc
    split at hc
    · exact h1 _ _ _ _ _ rfl rfl rfl
    · exact h2 _ _ _ _ _ rfl rfl rfl
    · exact h3 _ _ _ _ _ rfl rfl rfl
    · exact h4 _ _ _ _ _ rfl rfl rfl
    · exact h5 _ _ _ _ _ _ _ rfl rfl rfl
    · exact h6 _ _ _ _ _ _ _ _ rfl rfl rfl
    · exact h7 _ _ _ rfl rfl rfl
    · exact h8 _ _ rfl rfl rfl
    · exact h9 _ _ _ rfl rfl rfl
    · simp at hc
  case hfnil =>
    intro m _ _
    refine ⟨[], by simp [encodeRecordFields], ?_⟩
    intro rest
    simp [decodeRecordFields, decNativeFields]
  case hfcons =>
    intro fname ftype fd srest ttag fT trest vtag fv vrest ih1 ih4 m hc hp
    simp only [compatFields, Bool.and_eq_true, beq_iff_eq] at hc
    obtain ⟨⟨⟨hft, hvt⟩, hcf⟩, hrest⟩ := hc
    simp only [encodeStructFields, MapHasPairs] at hp
    obtain ⟨hlook, hptail⟩ := hp
    obtain ⟨b1, he1, hd1⟩ := ih1 hcf
    obtain ⟨bs, hes, hds⟩ := ih4 m hrest hptail
    have hfv : fname = vtag := hft.trans hvt.symm
    refine ⟨b1 ++ bs, ?_, ?_⟩
    · simp [encodeRecordFields, hfv, hlook, he1, hes, exceptBind_ok]
    · intro r0
      simp [decodeRecordFields, List.append_assoc, hd1, hds, decNativeFields,
        exceptBind_ok]
  case hfcatch =>
    intro x x1 x2 h1 h2 m hc hp
    exfalso
    rw [compatFields.eq_def] at hc
    split at hc
    · exact h1 rfl rfl rfl
    · exact h2 _ _ _ _ _ _ _ _ _ _ rfl rfl rfl
    · simp at hc
  case henil =>
    intro t T _
    refine ⟨[], by simp [encodeSliceElems, encodeItemsWith], ?_⟩
    intro rest
    simp [decodeItemsWith, decNativeElems]
  case hecons =>
    intro t T v rest ih1 ih3 hc
    simp only [compatElems, Bool.and_eq_true] at hc
    obtain ⟨h1, h2⟩ := hc
    obtain ⟨b1, he1, hd1⟩ := ih1 h1
    obtain ⟨bs, hes, hds⟩ := ih3 h2
    refine ⟨b1 ++ bs, ?_, ?_⟩
    · simp [encodeSliceElems, encodeItemsWith, he1, hes, exceptBind_ok]
    · intro r0
      simp [decodeItemsWith, List.append_assoc, hd1, hds, decNativeElems, exceptBind_ok]

theorem compat_anull (ns : String) (T : GoType) (v : GoVal) :
    compat ns .anull T v = false := by
  cases T <;> cases v <;> simp [compat]

theorem decNativeFields_keys (ns : String) :
    ∀ (sfs : List (String × AvroType × Option NativeValue))
      (tfs : List (String × GoType)) (vfs : List (String × GoVal)),
      compatFields ns sfs tfs vfs = true →
      (decNativeFields ns sfs vfs).map Prod.fst = sfs.map (fun f => f.1) := by
  intro sfs
  induction sfs with
  | nil =>
    intro tfs vfs h
    cases tfs <;> cases vfs <;> simp_all [compatFields, decNativeFields]
  | cons sf srest ih =>
    intro tfs vfs h
    obtain ⟨fname, ftype, fd⟩ := sf
    cases tfs with
    | nil => simp [compatFields] at h
    | cons tf trest =>
      obtain ⟨ttag, fT⟩ := tf
      cases vfs with
      | nil => simp [compatFields] at h
      | cons vf vrest =>
        obtain ⟨vtag, fv⟩ := vf
        simp only [compatFields, Bool.and_eq_true, beq_iff_eq] at h
        obtain ⟨⟨⟨h1, h2⟩, _⟩, h4⟩ := h
        simp [decNativeFields, ih trest vrest h4]

/-- The mapstructure decode walk inverts the encoding: under `compat`,
decoding `decNative ns t v` into the destination type `T` returns exactly
`v`. -/
theorem msDecode_decNative (ns : String) :
    ∀ (t : AvroType) (T : GoType) (v : GoVal), compat ns t T v = true →
      msDecode T (decNative ns t v) = .ok v := by
  refine compat.induct ns
    (fun t T v => compat ns t T v = true →
      msDecode T (decNative ns t v) = .ok v)
    (fun t T elems => compatElems ns t T elems = true →
      msDecodeElems T (decNativeElems ns t elems) = .ok elems)
    (fun sfs tfs vfs => ∀ m, compatFields ns sfs tfs vfs = true →
      MapHasPairs m (decNativeFields ns sfs vfs) →
      msDecodeFields tfs m = .ok vfs)
    ?hbool ?hint ?hlong ?hstr ?henum ?hrec ?harr ?hunone ?husfound ?husnone
    ?hcatch ?hfnil ?hfcons ?hfcatch ?henil ?hecons
  case hbool =>
    intro name ov gn gov b hc
    simp only [compat, Bool.and_eq_true, beq_iff_eq] at hc
    obtain ⟨h1, h2⟩ := hc
    simp [decNative, msDecode, decodeUnionHook, GoType.isPtr, h1, h2]
  case hint =>
    intro name ov gn gov n hc
    simp only [compat, Bool.and_eq_true, beq_iff_eq] at hc
    obtain ⟨⟨h1, h2⟩, h3⟩ := hc
    simp [decNative, msDecode, decodeUnionHook, GoType.isPtr, h1, h2, h3]
  case hlong =>
    intro name ov gn gov n hc
    simp only [compat, Bool.and_eq_true, beq_iff_eq] at hc
    obtain ⟨h1, h2⟩ := hc
    simp [decNative, msDecode, decodeUnionHook, GoType.isPtr, h1, h2]
  case hstr =>
    intro name ov gn gov s hc
    simp only [compat, Bool.and_eq_true, beq_iff_eq] at hc
    obtain ⟨h1, h2⟩ := hc
    simp [decNative, msDecode, decodeUnionHook, GoType.isPtr, h1, h2]
  case henum =>
    intro name symbols name1 ov gn gov s hc
    simp only [compat, Bool.and_eq_true, beq_iff_eq] at hc
    obtain ⟨⟨h1, h2⟩, _⟩ := hc
    simp [decNative, msDecode, decodeUnionHook, GoType.isPtr, h1, h2]
  case hrec =>
    intro name sfields name1 ov tfields gn gov vfields ih hc
    simp only [compat, Bool.and_eq_true, beq_iff_eq] at hc
    obtain ⟨⟨⟨h1, h2⟩, hdist⟩, hcf⟩ := hc
    have hkeys : (decNativeFields ns sfields vfields).map Prod.fst =
        sfields.map (fun f => f.1) :=
      decNativeFields_keys ns sfields tfields vfields hcf
    have hpairs : MapHasPairs (decNativeFields ns sfields vfields)
        (decNativeFields ns sfields vfields) :=
      distinct_self_pairs _ (by rw [hkeys]; exact hdist)
    have := ih (decNativeFields ns sfields vfields) hcf hpairs
    simp [decNative, msDecode, decodeUnionHook, GoType.isPtr, this, h1, h2,
      exceptBind_ok]
  case harr =>
    intro t T' elems ih hc
    simp only [compat] at hc
    have := ih hc
    simp [decNative, msDecode, decodeUnionHook, GoType.isPtr, this, exceptBind_ok]
  case hunone =>
    intro branches elem _
    simp [decNative, msDecode, zeroVal]
  case husfound =>
    intro branches T' v i b' hf ih hc
    simp only [compat, hf] at hc
    have hmd := ih hc
    have hban : b' ≠ .anull := by
      intro hb
      rw [hb, compat_anull] at hc
      exact Bool.false_ne_true hc
    have hmk : mkUnionNative b' (decNative ns b' v) =
        .nmap [(branchName b', decNative ns b' v)] := by
      cases b' <;> first | (exact absurd rfl hban) | simp [mkUnionNative]
    simp only [decNative, hf]
    rw [hmk]
    cases hdn : decNative ns b' v with
    | nnull =>
      rw [hdn] at hmd
      have hz : msDecode T' .nnull = .ok (zeroVal T') := by
        simp [msDecode]
      rw [hz] at hmd
      injection hmd with hv
      simp [msDecode, decodeUnionHook, GoType.isPtr, hv]
    | _ =>
      rw [hdn] at hmd
      simp_all [msDecode, decodeUnionHook, GoType.isPtr, exceptBind_ok]
  case husnone =>
    intro branches T' v hf hc
    simp only [compat, hf] at hc
    exact absurd hc (by simp)
  case hcatch =>
    intro v x x1 h1 h2 h3 h4 h5 h6 h7 h8 h9 hc
    exfalso
    rw [compat.eq_def] at hc
    split at hc
    · exact h1 _ _ _ _ _ rfl rfl rfl
    · exact h2 _ _ _ _ _ rfl rfl rfl
    · exact h3 _ _ _ _ _ rfl rfl rfl
    · exact h4 _ _ _ _ _ rfl rfl rfl
    · exact h5 _ _ _ _ _ _ _ rfl rfl rfl
    · exact h6 _ _ _ _ _ _ _ _ rfl rfl rfl
    · exact h7 _ _ _ rfl rfl rfl
    · exact h8 _ _ rfl rfl rfl
    · exact h9 _ _ _ rfl rfl rfl
    · simp at hc
  case hfnil =>
    intro m hc hp
    simp [msDecodeFields]
  case hfcons =>
    intro fname ftype fd srest ttag fT trest vtag fv vrest ih1 ih4 m hc hp
    simp only [compatFields, Bool.and_eq_true, beq_iff_eq] at hc
    obtain ⟨⟨⟨hft, hvt⟩, hcf⟩, hrest⟩ := hc
    simp only [decNativeFields, MapHasPairs] at hp
    obtain ⟨hlook, hptail⟩ := hp
    have hlook2 : m.lookup ttag = some (decNative ns ftype fv) := hft ▸ hlook
    simp [msDecodeFields, hlook2, ih1 hcf, ih4 m hrest hptail, hvt, exceptBind_ok]
  case hfcatch =>
    intro x x1 x2 h1 h2 m hc hp
    exfalso
    rw [compatFields.eq_def] at hc
    split at hc
    · exact h1 rfl rfl rfl
    · exact h2 _ _ _ _ _ _ _ _ _ _ rfl rfl rfl
    · simp at hc
  case henil =>
    intro t T _
    simp [decNativeElems, msDecodeElems]
  case hecons =>
    intro t T v rest ih1 ih3 hc
    simp only [compatElems, Bool.and_eq_true] at hc
    obtain ⟨h1, h2⟩ := hc
    simp [decNativeElems, msDecodeElems, ih1 h1, ih3 h2, exceptBind_ok]

/-! ## Registry-cache lemmas -/

theorem marshal_ok_shape (r : CodecRegistry) (data : MarshalData) (bytes : List Nat)
    (h : r.Marshal data = .ok bytes) :
    ∃ codec body, r.codecByID.lookup r.SchemaID = some codec ∧
      codec.MarshalData data = .ok body ∧
      bytes = 0 :: (int32BE r.SchemaID ++ body) := by
  rw [CodecRegistry.Marshal] at h
  split_ifs at h with h1
  split at h
  next heq => exact absurd h (by simp)
  next codec heq =>
    split at h
    next e heq2 => exact absurd h (by simp)
    next body heq2 =>
      injection h with hbytes
      exact ⟨codec, body, heq, heq2, hbytes.symm⟩

theorem marshal_not_errNoEncode (r : CodecRegistry) (data : MarshalData) (bytes : List Nat)
    (h : r.Marshal data = .ok bytes) : r.SchemaID ≠ UnknownID := by
  intro h1
  rw [CodecRegistry.Marshal, if_pos h1] at h
  exact absurd h (by simp)

theorem getCodecByID_state (r : CodecRegistry) (id : Int) :
    ((r.getCodecByID id).2.1).SchemaID = r.SchemaID ∧
    ((r.getCodecByID id).2.1).Registry = r.Registry := by
  unfold CodecRegistry.getCodecByID
  cases hl : r.codecByID.lookup id with
  | some c => exact ⟨rfl, rfl⟩
  | none =>
    cases hr : r.Registry.lookup id with
    | none => exact ⟨rfl, rfl⟩
    | some raw => cases raw <;> exact ⟨rfl, rfl⟩

theorem getCodecByID_mono (r : CodecRegistry) (id id' : Int) (c' : Codec)
    (h : r.codecByID.lookup id' = some c') :
    ((r.getCodecByID id).2.1).codecByID.lookup id' = some c' := by
  unfold CodecRegistry.getCodecByID
  cases hl : r.codecByID.lookup id with
  | some c => exact h
  | none =>
    cases hr : r.Registry.lookup id with
    | none => exact h
    | some raw =>
      cases raw with
      | malformed => exact h
      | wf s nsp =>
        by_cases he : id' = id
        · subst he
          rw [h] at hl
          exact absurd hl (by simp)
        · have hbe : (id' == id) = false := by simpa using he
          simpa [List.lookup, hbe] using h

theorem unmarshalBody_direct (rec : CodecRegistry → List Nat →
      CodecRegistry × Except RegErr GenMap)
    (r : CodecRegistry) (id : Int) (body : List Nat)
    (codec : Codec) (r' : CodecRegistry) (log : List Int)
    (hg : r.getCodecByID id = (.ok codec, r', log))
    (hdir : r'.SchemaID = UnknownID ∨ id = r'.SchemaID) :
    CodecRegistry.UnmarshalBody rec r 0 id body =
      (r', match codec.UnmarshalMap body with
           | .error e => .error (.codecErr e)
           | .ok m => .ok m) := by
  unfold CodecRegistry.UnmarshalBody
  rw [if_neg (show ¬(0 ≠ MagicByte) from by simp [MagicByte])]
  simp only [hg]
  rw [if_neg (show ¬(r'.SchemaID ≠ UnknownID ∧ id ≠ r'.SchemaID) from by
    rcases hdir with h | h
    · exact fun hx => hx.1 h
    · exact fun hx => hx.2 h)]
  split <;> rfl

theorem unmarshalBody_mono (rec : CodecRegistry → List Nat →
      CodecRegistry × Except RegErr GenMap)
    (hrec : ∀ r2 bs id' c', r2.codecByID.lookup id' = some c' →
      ((rec r2 bs).1).codecByID.lookup id' = some c')
    (r : CodecRegistry) (magic : Nat) (id : Int) (body : List Nat)
    (id' : Int) (c' : Codec) (h : r.codecByID.lookup id' = some c') :
    ((CodecRegistry.UnmarshalBody rec r magic id body).1).codecByID.lookup id' =
      some c' := by
  unfold CodecRegistry.UnmarshalBody
  split_ifs with h1
  · exact h
  · have hmono := getCodecByID_mono r id id' c' h
    rcases hg : r.getCodecByID id with ⟨res, r2, log⟩
    rw [hg] at hmono
    cases res with
    | error e => exact hmono
    | ok codec =>
      simp only
      split_ifs with h2
      · split
        next e heq => exact hmono
        next tmp heq =>
          split
          next e2 heq2 => exact hmono
          next from2 heq2 => exact hrec r2 from2 id' c' hmono
      · split
        next e heq => exact hmono
        next m heq => exact hmono

theorem unmarshalF_mono :
    ∀ (fuel : Nat) (r : CodecRegistry) (bs : List Nat) (id' : Int) (c' : Codec),
      r.codecByID.lookup id' = some c' →
      ((CodecRegistry.UnmarshalF fuel r bs).1).codecByID.lookup id' = some c' := by
  intro fuel
  induction fuel with
  | zero => intro r bs id' c' h; exact h
  | succ n ih =>
    intro r bs id' c' h
    rcases bs with _ | ⟨b, _ | ⟨x, _ | ⟨y, _ | ⟨z, _ | ⟨w, body⟩⟩⟩⟩⟩
    · exact unmarshalBody_mono _ (fun r2 bs => ih r2 bs) r 0 0 [] id' c' h
    · exact unmarshalBody_mono _ (fun r2 bs => ih r2 bs) r b 0 [] id' c' h
    · exact h
    · exact h
    · exact h
    · exact unmarshalBody_mono _ (fun r2 bs => ih r2 bs) r b
        (int32BEDecode x y z w) body id' c' h

theorem unmarshalBody_rec_agree
    (rec rec' : CodecRegistry → List Nat → CodecRegistry × Except RegErr GenMap)
    (r : CodecRegistry) (magic : Nat) (id : Int) (body : List Nat)
    (hagree : ∀ tmp from2,
      ((r.getCodecByID id).2.1).Marshal (.genmap tmp) = .ok from2 →
      rec ((r.getCodecByID id).2.1) from2 = rec' ((r.getCodecByID id).2.1) from2) :
    CodecRegistry.UnmarshalBody rec r magic id body =
      CodecRegistry.UnmarshalBody rec' r magic id body := by
  unfold CodecRegistry.UnmarshalBody
  split_ifs with h1
  · rfl
  · rcases hg : r.getCodecByID id with ⟨res, r2, log⟩
    rw [hg] at hagree
    cases res with
    | error e => rfl
    | ok codec =>
      simp only
      split_ifs with h2
      · split
        next e heq => rfl
        next tmp heq =>
          split
          next e2 heq2 => rfl
          next from2 heq2 => exact hagree tmp from2 heq2
      · rfl

/-- Decoding bytes freshly produced by `Marshal` always takes the direct
branch: one unit of fuel suffices and the fuel counter is never
exhausted. -/
theorem unmarshal_of_marshal (r2 : CodecRegistry)
    (hrange : -2147483648 ≤ r2.SchemaID ∧ r2.SchemaID < 2147483648)
    (tmp : GenMap) (from2 : List Nat)
    (hm : r2.Marshal (.genmap tmp) = .ok from2) :
    (∀ fuel, CodecRegistry.UnmarshalF (fuel + 1) r2 from2 =
      CodecRegistry.UnmarshalF 1 r2 from2) ∧
    isOutOfFuel (CodecRegistry.UnmarshalF 1 r2 from2).2 = false := by
  obtain ⟨codec, body2, hlook, hmd, hbytes⟩ := marshal_ok_shape r2 _ _ hm
  obtain ⟨e3, e2, e1, e0, hbe⟩ :
      ∃ a b c d, int32BE r2.SchemaID = [a, b, c, d] := ⟨_, _, _, _, rfl⟩
  have hdec : int32BEDecode e3 e2 e1 e0 = r2.SchemaID := by
    have := int32BEDecode_int32BE r2.SchemaID hrange
    rw [hbe] at this
    exact this
  have hform : from2 = 0 :: e3 :: e2 :: e1 :: e0 :: body2 := by
    rw [hbytes, hbe]
    rfl
  have hbody : ∀ rec,
      CodecRegistry.UnmarshalBody rec r2 0 (int32BEDecode e3 e2 e1 e0) body2 =
        (r2, match codec.UnmarshalMap body2 with
             | .error e => .error (.codecErr e)
             | .ok m => .ok m) := by
    intro rec
    have hg : r2.getCodecByID (int32BEDecode e3 e2 e1 e0) = (.ok codec, r2, []) := by
      unfold CodecRegistry.getCodecByID
      rw [hdec, hlook]
    exact unmarshalBody_direct rec r2 _ body2 codec r2 [] hg (Or.inr hdec)
  constructor
  · intro fuel
    rw [hform]
    show CodecRegistry.UnmarshalBody (CodecRegistry.UnmarshalF fuel) r2 0
        (int32BEDecode e3 e2 e1 e0) body2 =
      CodecRegistry.UnmarshalBody (CodecRegistry.UnmarshalF 0) r2 0
        (int32BEDecode e3 e2 e1 e0) body2
    rw [hbody, hbody]
  · rw [hform]
    show isOutOfFuel
      (CodecRegistry.UnmarshalBody (CodecRegistry.UnmarshalF 0) r2 0
        (int32BEDecode e3 e2 e1 e0) body2).2 = false
    rw [hbody]
    cases codec.UnmarshalMap body2 <;> rfl

theorem getCodecByID_not_fuel (r : CodecRegistry) (id : Int) :
    (r.getCodecByID id).1 ≠ .error .outOfFuel := by
  unfold CodecRegistry.getCodecByID
  cases hl : r.codecByID.lookup id with
  | some c => simp
  | none =>
    cases hr : r.Registry.lookup id with
    | none => simp
    | some raw => cases raw <;> simp [NewCodec]

theorem marshal_not_fuel (r : CodecRegistry) (data : MarshalData) :
    r.Marshal data ≠ .error .outOfFuel := by
  rw [CodecRegistry.Marshal]
  split_ifs
  · simp
  · split
    next => simp
    next codec heq =>
      split
      next e heq2 => simp
      next => simp

/-- The body of a 1-fuel `Unmarshal` never reports fuel exhaustion: every
branch either errors for a real reason or, in the reconciliation branch,
recurses exactly once on `Marshal`-produced bytes, which take the direct
branch. -/
theorem unmarshalBody_one_not_fuel (r : CodecRegistry)
    (hrange : -2147483648 ≤ r.SchemaID ∧ r.SchemaID < 2147483648)
    (magic : Nat) (id : Int) (body : List Nat) :
    isOutOfFuel
      (CodecRegistry.UnmarshalBody (CodecRegistry.UnmarshalF 1) r magic id
        body).2 = false := by
  unfold CodecRegistry.UnmarshalBody
  split_ifs with h1
  · rfl
  · have hst := (getCodecByID_state r id).1
    have hnf := getCodecByID_not_fuel r id
    rcases hg : r.getCodecByID id with ⟨res, r2, log⟩
    rw [hg] at hst hnf
    cases res with
    | error e =>
      simp only at hst hnf ⊢
      cases e <;> simp_all [isOutOfFuel]
    | ok codec =>
      simp only at hst ⊢
      split_ifs with h2
      · split
        next e heq => rfl
        next tmp heq =>
          split
          next e2 heq2 =>
            have hm := marshal_not_fuel r2 (.genmap tmp)
            rw [heq2] at hm
            cases e2 <;> simp_all [isOutOfFuel]
          next from2 heq2 =>
            exact (unmarshal_of_marshal r2 (by rw [hst]; exact hrange) tmp
              from2 heq2).2
      · split
        next e heq => rfl
        next m heq => rfl

/-- Two units of fuel settle every `Unmarshal`: the first round either
answers directly or reconciles; the reconciliation's recursive call runs on
freshly `Marshal`ed bytes and therefore takes the direct branch. -/
theorem unmarshalF_fuel_two (r : CodecRegistry)
    (hrange : -2147483648 ≤ r.SchemaID ∧ r.SchemaID < 2147483648)
    (bs : List Nat) :
    (∀ n, CodecRegistry.UnmarshalF (n + 2) r bs =
      CodecRegistry.UnmarshalF 2 r bs) ∧
    isOutOfFuel (CodecRegistry.UnmarshalF 2 r bs).2 = false := by
  have hbody : ∀ (m : Nat) (i : Int) (body : List Nat) (n : Nat),
      CodecRegistry.UnmarshalBody (CodecRegistry.UnmarshalF (n + 1)) r m i
          body =
        CodecRegistry.UnmarshalBody (CodecRegistry.UnmarshalF 1) r m i
          body := by
    intro m i body n
    apply unmarshalBody_rec_agree
    intro tmp from2 hm
    have hst := (getCodecByID_state r i).1
    exact (unmarshal_of_marshal _ (by rw [hst]; exact hrange) tmp from2 hm).1 n
  have hnf : ∀ (m : Nat) (i : Int) (body : List Nat),
      isOutOfFuel
        (CodecRegistry.UnmarshalBody (CodecRegistry.UnmarshalF 1) r m i
          body).2 = false :=
    fun m i body => unmarshalBody_one_not_fuel r hrange m i body
  rcases bs with _ | ⟨b, _ | ⟨x, _ | ⟨y, _ | ⟨z, _ | ⟨w, body⟩⟩⟩⟩⟩
  · exact ⟨fun n => hbody 0 0 [] n, hnf 0 0 []⟩
  · exact ⟨fun n => hbody b 0 [] n, hnf b 0 []⟩
  · exact ⟨fun n => rfl, rfl⟩
  · exact ⟨fun n => rfl, rfl⟩
  · exact ⟨fun n => rfl, rfl⟩
  · exact ⟨fun n => hbody b (int32BEDecode x y z w) body n,
      hnf b (int32BEDecode x y z w) body⟩

/-! ## Claim theorems -/

/-- C9: the default type-name translation is the composition of the
primitive-type table (narrow/unsigned integers to `"int"`, 64-bit or
default-width integers to `"long"`, `float32` to `"float"`, `float64` to
`"double"`, `bool` to `"boolean"`, everything else unchanged) with the
case translation that splits on case and acronym boundaries, lower-cases
each segment and joins with underscores; in particular
`DefaultTypeNameEncoder "int" = "long"` and
`DefaultTypeNameEncoder "MyObject" = "my_object"`. -/
theorem claim_C9 :
    (∀ name, DefaultTypeNameEncoder name = CamelCaseToSnakeCase (GoToAvroType name)) ∧
    (GoToAvroType "uint8" = "int" ∧ GoToAvroType "uint16" = "int" ∧
     GoToAvroType "uint32" = "int" ∧ GoToAvroType "int8" = "int" ∧
     GoToAvroType "int16" = "int" ∧ GoToAvroType "int32" = "int" ∧
     GoToAvroType "rune" = "int" ∧ GoToAvroType "uint" = "long" ∧
     GoToAvroType "int" = "long" ∧ GoToAvroType "uint64" = "long" ∧
     GoToAvroType "int64" = "long" ∧ GoToAvroType "float32" = "float" ∧
     GoToAvroType "float64" = "double" ∧ GoToAvroType "bool" = "boolean") ∧
    (∀ name, typeConversion.lookup name = none → GoToAvroType name = name) ∧
    (∀ name, CamelCaseToSnakeCase name =
      String.intercalate "_" ((camelSplit name).map toLowerStr)) ∧
    DefaultTypeNameEncoder "int" = "long" ∧
    DefaultTypeNameEncoder "MyObject" = "my_object" := by
  refine ⟨fun _ => rfl, by decide, ?_, fun _ => rfl, by decide, by decide⟩
  intro name h
  simp [GoToAvroType, h]

/-- Witness for C9's pass-through hypothesis at a name absent from the
table. -/
theorem claim_C9_witness :
    typeConversion.lookup "MyObject" = none ∧ GoToAvroType "MyObject" = "MyObject" :=
  ⟨by decide, claim_C9.2.2.1 "MyObject" (by decide)⟩

/-- C7: during decode into a pointer destination, a single-key mapping
unwraps to its inner value; a mapping with two or more keys passes through
unaltered. -/
theorem claim_C7 :
    (∀ (k : String) (v : NativeValue), decodeUnionHook true (.nmap [(k, v)]) = v) ∧
    (∀ m : GenMap, 2 ≤ m.length → decodeUnionHook true (.nmap m) = .nmap m) := by
  refine ⟨fun k v => rfl, ?_⟩
  intro m hm
  match m with
  | [] => simp at hm
  | [(k1, v1)] => simp at hm
  | (k1, v1) :: (k2, v2) :: rest => rfl

/-- Witness for C7's two-key hypothesis. -/
theorem claim_C7_witness :
    2 ≤ ([("a", NativeValue.nnull), ("b", NativeValue.nnull)] : GenMap).length ∧
    decodeUnionHook true (.nmap [("a", .nnull), ("b", .nnull)]) =
      .nmap [("a", .nnull), ("b", .nnull)] :=
  ⟨by decide, claim_C7.2 [("a", .nnull), ("b", .nnull)] (by decide)⟩

/-- C8: a nil pointer encodes as the union mapping `{"null": nil}`; a
present pointer encodes as a single-key mapping keyed by the pointee's
Avro-visible name — namespace-prefixed unless it is an Avro primitive —
wrapping the recursively mapped pointee (e.g. an `int64` pointee keys
`"long"`, a custom `MyType` string keys `"my.ns.my_type"`). -/
theorem claim_C8 (ns : String) :
    (encodeUnionHook ns (.vptr none) = .nmap [("null", .nnull)]) ∧
    (∀ v, encodeUnionHook ns (.vptr (some v)) =
      .nmap [(resolvedUnionName ns v, encodeUnionHook ns v)]) ∧
    (∀ v, resolvedUnionName ns v =
      if isAvroBaseType (getTypeName v) then getTypeName v
      else AddNamespace ns (getTypeName v)) ∧
    (encodeUnionHook "my.ns" (.vptr (some (.vint64 "int64" none 5))) =
      .nmap [("long", .nlong 5)]) ∧
    (encodeUnionHook "my.ns" (.vptr (some (.vstr "MyType" none "x"))) =
      .nmap [("my.ns.my_type", .nstr "x")]) :=
  ⟨rfl, fun _ => rfl, fun _ => rfl, rfl, rfl⟩

/-- C2: a successful `Marshal` yields exactly 5 header bytes — byte 0 is
`0x00` and bytes 1–4 the big-endian signed 32-bit current schema id —
followed by the codec-produced body. -/
theorem claim_C2 (r : CodecRegistry) (data : MarshalData) (bytes : List Nat)
    (h : r.Marshal data = .ok bytes) :
    5 ≤ bytes.length ∧
    bytes.take 5 = MagicByte :: int32BE r.SchemaID ∧
    ∃ codec body, r.codecByID.lookup r.SchemaID = some codec ∧
      codec.MarshalData data = .ok body ∧
      bytes = 0 :: (int32BE r.SchemaID ++ body) ∧ bytes.drop 5 = body := by
  rw [CodecRegistry.Marshal] at h
  split_ifs at h with h1
  split at h
  next heq => exact absurd h (by simp)
  next codec heq =>
    split at h
    next e heq2 => exact absurd h (by simp)
    next body heq2 =>
      injection h with hbytes
      refine ⟨?_, ?_, codec, body, heq, heq2, ?_, ?_⟩ <;>
        simp [← hbytes, int32BE, MagicByte]

/-- Witness for C2 at a concrete cache and payload. -/
theorem claim_C2_witness :
    5 ≤ ([0, 0, 0, 0, 1, 14] : List Nat).length ∧
    ([0, 0, 0, 0, 1, 14] : List Nat).take 5 =
      MagicByte :: int32BE (1 : Int) ∧
    ∃ codec body,
      (⟨[(1, ⟨.aint, ""⟩)], [], 1⟩ : CodecRegistry).codecByID.lookup (1 : Int) =
        some codec ∧
      codec.MarshalData (.goval (.vint32 "int32" none 7)) = .ok body ∧
      ([0, 0, 0, 0, 1, 14] : List Nat) = 0 :: (int32BE (1 : Int) ++ body) ∧
      ([0, 0, 0, 0, 1, 14] : List Nat).drop 5 = body :=
  claim_C2 ⟨[(1, ⟨.aint, ""⟩)], [], 1⟩ (.goval (.vint32 "int32" none 7))
    [0, 0, 0, 0, 1, 14] rfl

/-- C5: `Marshal` returns `ErrNoEncodeSchema` exactly when the current
schema id is the reserved value −1; with any other id the result is never
that configuration error. -/
theorem claim_C5 (r : CodecRegistry) (data : MarshalData) :
    r.Marshal data = .error RegErr.errNoEncodeSchema ↔ r.SchemaID = -1 := by
  constructor
  · intro h
    by_contra h1
    rw [CodecRegistry.Marshal,
      if_neg (show ¬r.SchemaID = UnknownID from by simpa [UnknownID] using h1)] at h
    split at h
    next heq => exact absurd h (by simp)
    next codec heq =>
      split at h
      next e heq2 => exact absurd h (by simp)
      next body heq2 => exact absurd h (by simp)
  · intro h
    rw [CodecRegistry.Marshal, if_pos (show r.SchemaID = UnknownID from by simpa [UnknownID] using h)]

/-- C4: for any structured value encodable under the codec's schema with a
matching destination type, decoding the bytes produced by `Codec.Marshal`
with `Codec.Unmarshal` returns the original value — across scalars, nested
records, arrays, optional/union pointer fields, enums and custom-named
types. -/
theorem claim_C4 (ns : String) (t : AvroType) (T : GoType) (v : GoVal)
    (hc : compat ns t T v = true) (hnp : v.isPtr = false) :
    ∃ bs, (Codec.mk t ns).Marshal v = .ok bs ∧
      (Codec.mk t ns).Unmarshal T bs = .ok v := by
  obtain ⟨bs, henc, hdec⟩ := encode_decode_native ns t T v hc
  refine ⟨bs, ?_, ?_⟩
  · cases v <;> simp_all [Codec.Marshal, GoVal.isPtr]
  · unfold Codec.Unmarshal
    have h0 := hdec []
    rw [List.append_nil] at h0
    simp [h0, msDecode_decNative ns t T v hc, exceptBind_ok]

/-- Witness for C4 on a record exercising scalars, a nested record, an
array, present and absent union pointer fields, an enum and a
namespaced custom-named type. -/
theorem claim_C4_witness :
    compat "my.ns" examplePersonSchema examplePersonType examplePersonVal = true ∧
    GoVal.isPtr examplePersonVal = false ∧
    ∃ bs, (Codec.mk examplePersonSchema "my.ns").Marshal examplePersonVal = .ok bs ∧
      (Codec.mk examplePersonSchema "my.ns").Unmarshal examplePersonType bs =
        .ok examplePersonVal :=
  ⟨by decide, by decide,
   claim_C4 "my.ns" examplePersonSchema examplePersonType examplePersonVal
     (by decide) (by decide)⟩

/-- C1: whenever the current schema id is configured and the header id
differs from it, `Unmarshal` reconciles — decode the body with the codec
resolved for the header id into a generic map, re-encode that map with the
current codec (whose declared defaults fill absent fields), and recursively
decode the fresh bytes; in particular a payload encoded under v1
`{name, age}` decoded under v2 `{name, age, height:int default=150}` into
a generic map yields `name` and `age` unchanged and `height = 150`. -/
theorem claim_C1 :
    (∀ (fuel : Nat) (r : CodecRegistry) (b3 b2 b1 b0 : Nat) (body : List Nat)
        (codec : Codec) (r' : CodecRegistry) (log : List Int)
        (tmpTo : GenMap) (from2 : List Nat),
      r.SchemaID ≠ UnknownID →
      int32BEDecode b3 b2 b1 b0 ≠ r.SchemaID →
      r.getCodecByID (int32BEDecode b3 b2 b1 b0) = (.ok codec, r', log) →
      codec.UnmarshalMap body = .ok tmpTo →
      r'.Marshal (.genmap tmpTo) = .ok from2 →
      CodecRegistry.UnmarshalF (fuel + 1) r
          (0 :: b3 :: b2 :: b1 :: b0 :: body) =
        CodecRegistry.UnmarshalF fuel r' from2) ∧
    BinaryFromNative exampleV1 (.nmap [("name", .nstr "x"), ("age", .nint 3)]) =
      .ok [2, 120, 6] ∧
    (CodecRegistry.UnmarshalF 2 exampleRegistry
        (0 :: (int32BE 1 ++ [2, 120, 6]))).2 =
      .ok [("name", .nstr "x"), ("age", .nint 3), ("height", .nint 150)] ∧
    ([("name", NativeValue.nstr "x"), ("age", NativeValue.nint 3),
      ("height", NativeValue.nint 150)] : GenMap).lookup "height" =
      some (.nint 150) := by
  refine ⟨?_, rfl, rfl, rfl⟩
  intro fuel r b3 b2 b1 b0 body codec r' log tmpTo from2 h1 h2 hg hu hm
  have hstate := (getCodecByID_state r (int32BEDecode b3 b2 b1 b0)).1
  rw [hg] at hstate
  simp only at hstate
  show CodecRegistry.UnmarshalBody (CodecRegistry.UnmarshalF fuel) r 0
      (int32BEDecode b3 b2 b1 b0) body = CodecRegistry.UnmarshalF fuel r' from2
  unfold CodecRegistry.UnmarshalBody
  rw [if_neg (show ¬(0 ≠ MagicByte) from by simp [MagicByte])]
  simp only [hg]
  rw [if_pos ⟨by rw [hstate]; exact h1, by rw [hstate]; exact h2⟩]
  simp only [hu, hm]

/-- Witness for C1: the forward-evolution payload (written under v1, id 1)
arriving at a cache configured on v2 (id 2) reduces to a recursive decode
of the v2-re-encoded bytes, in which `height` carries the default 150
(`[172, 2]`). -/
theorem claim_C1_witness :
    CodecRegistry.UnmarshalF 2 exampleRegistry [0, 0, 0, 0, 1, 2, 120, 6] =
      CodecRegistry.UnmarshalF 1
        { exampleRegistry with
            codecByID := (1, ⟨exampleV1, ""⟩) :: exampleRegistry.codecByID }
        [0, 0, 0, 0, 2, 2, 120, 6, 172, 2] :=
  claim_C1.1 1 exampleRegistry 0 0 0 1 [2, 120, 6] ⟨exampleV1, ""⟩
    { exampleRegistry with
        codecByID := (1, ⟨exampleV1, ""⟩) :: exampleRegistry.codecByID }
    [1] [("name", .nstr "x"), ("age", .nint 3)]
    [0, 0, 0, 0, 2, 2, 120, 6, 172, 2]
    (by decide) (by decide) rfl rfl rfl

/-- C3 (amended): a nonzero first byte always yields a protocol error; an
input whose id field is only partially present (total length 2–4) yields
the truncated-header protocol error; a well-formed 5-byte header hands
exactly the remaining bytes to the body stage with the big-endian id; the
direct branch feeds that body to the resolved codec.  (The original claim
— that every input shorter than 5 bytes fails — is refuted separately:
`binary.Read` ignores `io.EOF`, so empty and 1-byte inputs parse as a
zero-filled header.) -/
theorem claim_C3 :
    (∀ (fuel : Nat) (r : CodecRegistry) (b : Nat) (rest : List Nat), b ≠ 0 →
      ∃ e, (CodecRegistry.UnmarshalF (fuel + 1) r (b :: rest)).2 = .error e ∧
        e.isProtocol = true) ∧
    (∀ (fuel : Nat) (r : CodecRegistry) (b : Nat) (rest : List Nat),
      1 ≤ rest.length → rest.length ≤ 3 →
      (CodecRegistry.UnmarshalF (fuel + 1) r (b :: rest)).2 =
        .error .protocolTrunc) ∧
    (∀ (fuel : Nat) (r : CodecRegistry) (b3 b2 b1 b0 : Nat) (body : List Nat),
      CodecRegistry.UnmarshalF (fuel + 1) r (0 :: b3 :: b2 :: b1 :: b0 :: body) =
        CodecRegistry.UnmarshalBody (CodecRegistry.UnmarshalF fuel) r 0
          (int32BEDecode b3 b2 b1 b0) body) ∧
    (∀ (rec : CodecRegistry → List Nat → CodecRegistry × Except RegErr GenMap)
        (r : CodecRegistry) (id : Int) (body : List Nat)
        (codec : Codec) (r' : CodecRegistry) (log : List Int),
      r.getCodecByID id = (.ok codec, r', log) →
      (r'.SchemaID = UnknownID ∨ id = r'.SchemaID) →
      CodecRegistry.UnmarshalBody rec r 0 id body =
        (r', match codec.UnmarshalMap body with
             | .error e => .error (.codecErr e)
             | .ok m => .ok m)) := by
  refine ⟨?_, ?_, ?_, ?_⟩
  · intro fuel r b rest hb
    rcases rest with _ | ⟨x, _ | ⟨y, _ | ⟨z, _ | ⟨w, body⟩⟩⟩⟩
    · refine ⟨.protocolMagic b, ?_, rfl⟩
      show (CodecRegistry.UnmarshalBody (CodecRegistry.UnmarshalF fuel) r b 0
        []).2 = .error (.protocolMagic b)
      unfold CodecRegistry.UnmarshalBody
      rw [if_pos (show b ≠ MagicByte from by simpa [MagicByte] using hb)]
    · exact ⟨.protocolTrunc, rfl, rfl⟩
    · exact ⟨.protocolTrunc, rfl, rfl⟩
    · exact ⟨.protocolTrunc, rfl, rfl⟩
    · refine ⟨.protocolMagic b, ?_, rfl⟩
      show (CodecRegistry.UnmarshalBody (CodecRegistry.UnmarshalF fuel) r b
        (int32BEDecode x y z w) body).2 = .error (.protocolMagic b)
      unfold CodecRegistry.UnmarshalBody
      rw [if_pos (show b ≠ MagicByte from by simpa [MagicByte] using hb)]
  · intro fuel r b rest h1 h2
    rcases rest with _ | ⟨x, _ | ⟨y, _ | ⟨z, _ | ⟨w, body⟩⟩⟩⟩
    · simp at h1
    · rfl
    · rfl
    · rfl
    · simp at h2
  · intro fuel r b3 b2 b1 b0 body
    rfl
  · intro rec r id body codec r' log hg hdir
    exact unmarshalBody_direct rec r id body codec r' log hg hdir

/-- Counterexample to C3 as stated: the empty input is shorter than the
5-byte header, yet `Unmarshal` does not fail — `binary.Read` with `io.EOF`
ignored leaves the header zero-filled, the magic-byte check passes, and
the codec for id 0 decodes the empty body successfully. -/
theorem claim_C3_counterexample :
    ([] : List Nat).length < 5 ∧
    CodecRegistry.UnmarshalF 2 emptyRecordRegistry [] =
      (emptyRecordRegistry, .ok []) :=
  ⟨by decide, rfl⟩

/-- Witness for C3 at a nonzero magic byte and at a 3-byte input. -/
theorem claim_C3_witness :
    (∃ e, (CodecRegistry.UnmarshalF 1 emptyRecordRegistry [7]).2 = .error e ∧
      e.isProtocol = true) ∧
    (CodecRegistry.UnmarshalF 1 emptyRecordRegistry [0, 1, 2]).2 =
      .error .protocolTrunc :=
  ⟨claim_C3.1 0 emptyRecordRegistry 7 [] (by decide),
   claim_C3.2.1 0 emptyRecordRegistry 0 [1, 2] (by decide) (by decide)⟩

/-- C6: the id-to-codec cache is lazy and monotone — a hit returns the
stored codec with no registry contact and no state change; a miss fetches
the schema, instantiates a codec and cons-inserts it under the id; a failed
fetch or failed codec construction returns an error and leaves the cache
unchanged; and no operation (neither `getCodecByID` nor a whole
`Unmarshal`) ever removes an entry. -/
theorem claim_C6 :
    (∀ (r : CodecRegistry) (id : Int) (codec : Codec),
      r.codecByID.lookup id = some codec →
      r.getCodecByID id = (.ok codec, r, [])) ∧
    (∀ (r : CodecRegistry) (id : Int) (s : AvroType) (nsp : String),
      r.codecByID.lookup id = none →
      r.Registry.lookup id = some (.wf s nsp) →
      r.getCodecByID id =
        (.ok ⟨s, nsp⟩,
         { r with codecByID := (id, ⟨s, nsp⟩) :: r.codecByID }, [id])) ∧
    (∀ (r : CodecRegistry) (id : Int),
      r.codecByID.lookup id = none → r.Registry.lookup id = none →
      r.getCodecByID id = (.error (.registryFetch id), r, [id])) ∧
    (∀ (r : CodecRegistry) (id : Int),
      r.codecByID.lookup id = none → r.Registry.lookup id = some .malformed →
      r.getCodecByID id = (.error (.newCodecErr id), r, [id])) ∧
    (∀ (r : CodecRegistry) (id id' : Int) (c' : Codec),
      r.codecByID.lookup id' = some c' →
      ((r.getCodecByID id).2.1).codecByID.lookup id' = some c') ∧
    (∀ (fuel : Nat) (r : CodecRegistry) (bs : List Nat) (id' : Int) (c' : Codec),
      r.codecByID.lookup id' = some c' →
      ((CodecRegistry.UnmarshalF fuel r bs).1).codecByID.lookup id' = some c') := by
  refine ⟨?_, ?_, ?_, ?_, getCodecByID_mono, unmarshalF_mono⟩
  · intro r id codec h
    unfold CodecRegistry.getCodecByID
    rw [h]
  · intro r id s nsp h1 h2
    unfold CodecRegistry.getCodecByID
    rw [h1, h2]
    rfl
  · intro r id h1 h2
    unfold CodecRegistry.getCodecByID
    rw [h1, h2]
  · intro r id h1 h2
    unfold CodecRegistry.getCodecByID
    rw [h1, h2]
    rfl

/-- Witness for C6: a cache hit on id 2 leaves `exampleRegistry` untouched
and fetches nothing; a miss on id 1 fetches it and cons-inserts the new
codec. -/
theorem claim_C6_witness :
    exampleRegistry.getCodecByID 2 = (.ok ⟨exampleV2, ""⟩, exampleRegistry, []) ∧
    exampleRegistry.getCodecByID 1 =
      (.ok ⟨exampleV1, ""⟩,
       { exampleRegistry with
           codecByID := (1, ⟨exampleV1, ""⟩) :: exampleRegistry.codecByID },
       [1]) :=
  ⟨claim_C6.1 exampleRegistry 2 ⟨exampleV2, ""⟩ rfl,
   claim_C6.2.1 exampleRegistry 1 exampleV1 "" rfl rfl⟩

/-- C10: `Unmarshal` terminates with at most one reconciliation round —
two units of recursion fuel give the same answer as any larger amount and
the fuel bound is never hit; moreover bytes freshly produced by `Marshal`
carry the current schema id in their header, so the reconciliation's single
recursive call takes the direct-decode branch and one unit of fuel
suffices for it. -/
theorem claim_C10 :
    (∀ (r : CodecRegistry) (bs : List Nat),
      -2147483648 ≤ r.SchemaID → r.SchemaID < 2147483648 →
      (∀ extra, CodecRegistry.UnmarshalF (2 + extra) r bs =
        CodecRegistry.UnmarshalF 2 r bs) ∧
      isOutOfFuel (CodecRegistry.UnmarshalF 2 r bs).2 = false) ∧
    (∀ (r2 : CodecRegistry) (tmp : GenMap) (from2 : List Nat),
      -2147483648 ≤ r2.SchemaID → r2.SchemaID < 2147483648 →
      r2.Marshal (.genmap tmp) = .ok from2 →
      ∀ fuel, CodecRegistry.UnmarshalF (fuel + 1) r2 from2 =
        CodecRegistry.UnmarshalF 1 r2 from2) := by
  constructor
  · intro r bs hlo hhi
    obtain ⟨h1, h2⟩ := unmarshalF_fuel_two r ⟨hlo, hhi⟩ bs
    exact ⟨fun extra => by rw [Nat.add_comm]; exact h1 extra, h2⟩
  · intro r2 tmp from2 hlo hhi hm fuel
    exact (unmarshal_of_marshal r2 ⟨hlo, hhi⟩ tmp from2 hm).1 fuel

/-- Witness for C10 on the reconciling forward-evolution payload: fuel 2
already settles it and the fuel bound is not hit. -/
theorem claim_C10_witness :
    CodecRegistry.UnmarshalF 5 exampleRegistry [0, 0, 0, 0, 1, 2, 120, 6] =
      CodecRegistry.UnmarshalF 2 exampleRegistry [0, 0, 0, 0, 1, 2, 120, 6] ∧
    isOutOfFuel
      (CodecRegistry.UnmarshalF 2 exampleRegistry
        [0, 0, 0, 0, 1, 2, 120, 6]).2 = false :=
  ⟨(claim_C10.1 exampleRegistry [0, 0, 0, 0, 1, 2, 120, 6]
      (by decide) (by decide)).1 3,
   (claim_C10.1 exampleRegistry [0, 0, 0, 0, 1, 2, 120, 6]
      (by decide) (by decide)).2⟩

end Avrocado


